import Mathlib

/-!
# fmap: a chained hash table with fixed key and value sizes

A shallow embedding of `fmap.h`.  The heap of the C program is represented
structurally: the bucket array is a list of chains, a chain is the list of
entry blocks reached by following `next` from the slot's head pointer, and an
empty list is a slot holding `0`.  Sizes are natural numbers; the platform is
taken to be LP64 (`size_t` 64 bits, `int` 32 bits, `sizeof(struct fmapentry)`
16 bytes).  Operations whose C behaviour is undefined on an input (a modulus
by a zero `bucket_cap`, a slot access outside the bucket array) or whose
recursion budget is used up yield `none`.
-/

set_option autoImplicit false

namespace Fmap

/-! ## Machine integers -/

/-- Conversion of an unsigned value to `int` (two's complement, 32 bits). -/
def to_int32 (n : Nat) : Int :=
  if n % 2 ^ 32 < 2 ^ 31 then ((n % 2 ^ 32 : Nat) : Int) else ((n % 2 ^ 32 : Nat) : Int) - 2 ^ 32

/-- Conversion of an `int` to `unsigned int` / `uint32_t`. -/
def to_uint32 (x : Int) : Nat := (x % 2 ^ 32).toNat

/-- Conversion of an `int` to `size_t` (64 bits). -/
def to_size_t (x : Int) : Nat := (x % 2 ^ 64).toNat

/-- The C library `abs` on `int`.  On `INT_MIN` the negation wraps around and
the argument comes back unchanged, as the two's complement negate instruction
does. -/
def c_abs (x : Int) : Int :=
  if x = -(2 ^ 31) then x else if x < 0 then -x else x

/-! ## Single precision load factor -/

/-- Number of binary digits of `n`, by repeated halving; the first argument
bounds the number of halvings. -/
def bit_length : Nat → Nat → Nat
  | 0, _ => 0
  | fuel + 1, n => if n = 0 then 0 else bit_length fuel (n / 2) + 1

/-- Position of the leading binary digit of `n` (zero for `n = 0`). -/
def ilog2 (n : Nat) : Nat := bit_length n n - 1

/-- Nearest integer to `n / d`, ties to the even one. -/
def round_nearest_even (n d : Nat) : Nat :=
  let q := n / d
  let r := n % d
  if 2 * r < d then q
  else if d < 2 * r then q + 1
  else if q % 2 = 0 then q else q + 1

/-- The exponent `e` with `2 ^ 23 <= num / den * 2 ^ (150 - e) < 2 ^ 24`, found
from the bit lengths of the operands and one comparison. -/
def f32_exponent (num den : Nat) : Nat :=
  let e0 := 127 + ilog2 num - ilog2 den
  if num * 2 ^ 150 < den * 2 ^ (e0 + 23) then e0 - 1 else e0

/-- Round the positive rational `num / den` to a significand of 24 bits,
round to nearest, ties to even.  The result `(m, e)` stands for the value
`m * 2 ^ e / 2 ^ 150`; the bias 150 keeps the exponent a natural number for all
quotients of 64-bit operands, and the exponent range of the format is not
reached by them. -/
def f32_round (num den : Nat) : Nat × Nat :=
  (round_nearest_even (num * 2 ^ 150) (den * 2 ^ f32_exponent num den), f32_exponent num den)

/-- Value of `(float)n` for an unsigned integer `n`; it is again an integer. -/
def f32_of_nat (n : Nat) : Nat :=
  let r := f32_round n 1
  r.1 * 2 ^ r.2 / 2 ^ 150

/-- The test `(float)num_buckets / (float)bucket_cap > FMAP_LOAD_FACTOR` of
`fmap_push` and `fmap_pushp`, for non-zero operands, in IEEE 754 binary32
arithmetic: both conversions and the division round to single precision (the
quotient is stored in the `float` variable `load_factor`), and the comparison
with the `double` constant `0.75` is exact. -/
def load_factor_exceeds (num_buckets bucket_cap : Nat) : Bool :=
  let q := f32_round (f32_of_nat num_buckets) (f32_of_nat bucket_cap)
  -- q.1 * 2 ^ q.2 / 2 ^ 150 > 3 / 4
  decide (3 * 2 ^ 150 < 4 * (q.1 * 2 ^ q.2))

/-! ## Data model -/

/-- The value of `sizeof(struct fmapentry)`: the `next` pointer (8 bytes), the
hash (4 bytes) and 4 bytes of padding. -/
def header_size : Nat := 16

/-- The allocation function a block came from (not a field of the C data: it
records the provenance of a block). -/
inductive AllocFn where
  | malloc
  | calloc
  | custom (id : Nat)
  deriving DecidableEq, Repr

/-- The release function a block is handed to. -/
inductive FreeFn where
  | free
  | custom (id : Nat)
  deriving DecidableEq, Repr

/-- One entry block: the header field `hash`, then the key bytes and the
value bytes stored inline.  The `next` field is the tail of the list the
entry stands in. -/
structure fmapentry where
  hash : Nat
  key : List Nat
  value : List Nat
  alloc_by : AllocFn
  deriving DecidableEq, Repr

/-- The table.  `buckets` has one chain per slot of the allocated array, which
`bucket_cap` is meant to count; `buckets_by` records where the array came from. -/
structure fmap where
  key1_size : Nat
  key2_size : Nat
  mapentry_size : Nat
  bucket_cap : Nat
  num_buckets : Nat
  buckets : List (List fmapentry)
  buckets_by : AllocFn
  allocfunc : AllocFn
  freefunc : FreeFn
  hashfunc : List Nat → Nat → Nat

/-- An address inside an entry block: the block is the one at position `pos`
of the chain of slot `slot`, and `off` is the byte offset from its start. -/
structure Ptr where
  slot : Nat
  pos : Nat
  off : Nat
  deriving DecidableEq, Repr

/-! ## Construction -/

/-- The function `fmap_init_num`.  Every field of `*map` is overwritten, so the
previous content `_map` of the handle plays no part; the second component is
the return value. -/
def fmap_init_num (_map : fmap) (key1_size key2_size : Nat) (hashfunc : List Nat → Nat → Nat)
    (num : Int) : fmap × Nat :=
  ({ key1_size := key1_size
     key2_size := key2_size
     mapentry_size := header_size + key1_size + key2_size
     bucket_cap := to_size_t num
     num_buckets := 0
     buckets := List.replicate (to_size_t num) []
     buckets_by := AllocFn.calloc
     allocfunc := AllocFn.malloc
     freefunc := FreeFn.free
     hashfunc := hashfunc }, 0)

/-- The constant `FMAP_CAP`. -/
def FMAP_CAP : Int := 16

/-- The function `fmap_init`. -/
def fmap_init (map : fmap) (key1_size key2_size : Nat) (hashfunc : List Nat → Nat → Nat) :
    fmap × Nat :=
  fmap_init_num map key1_size key2_size hashfunc FMAP_CAP

/-- The function `fmap_set_allocation_funcs`. -/
def fmap_set_allocation_funcs (map : fmap) (allocfunc : AllocFn) (freefunc : FreeFn) : fmap :=
  { map with allocfunc := allocfunc, freefunc := freefunc }

/-! ## Insertion -/

/-- The block returned by `map->allocfunc(map->mapentry_size)`.  `junk` is
what its value region happens to hold; the header and the key region are
written by both initialisers before anything reads them. -/
def alloc_entry (map : fmap) (junk : List Nat) : fmapentry :=
  { hash := 0, key := [], value := junk, alloc_by := map.allocfunc }

/-- The function `fmap_initialize_fmapentry`: header, then `key1_size` key
bytes and `key2_size` value bytes copied in. -/
def fmap_initialize_fmapentry (map : fmap) (entry : fmapentry) (hash : Nat)
    (key value : List Nat) : fmapentry :=
  { entry with hash := hash, key := key.take map.key1_size, value := value.take map.key2_size }

/-- The function `fmap_initialize_fmapentryp`: header and key only; the result
also carries the offset of the returned address inside the block. -/
def fmap_initialize_fmapentryp (map : fmap) (entry : fmapentry) (hash : Nat)
    (key : List Nat) : fmapentry × Nat :=
  ({ entry with hash := hash, key := key.take map.key1_size }, header_size + map.key1_size)

/-- The function `fmap_new_entry`. -/
def fmap_new_entry (map : fmap) (key : List Nat) (hash : Nat) (value : List Nat) (idx : Nat) :
    Option fmap :=
  match map.buckets[idx]? with
  | none => none
  | some [] =>
    let new_bucket := fmap_initialize_fmapentry map (alloc_entry map []) hash key value
    some { map with buckets := map.buckets.set idx [new_bucket]
                    num_buckets := map.num_buckets + 1 }
  | some (head :: rest) =>
    let entry := fmap_initialize_fmapentry map (alloc_entry map []) hash key value
    some { map with buckets := map.buckets.set idx ((head :: rest) ++ [entry]) }

/-- The function `fmap_grow`, with the insertion into the temporary table
passed in as `push`.  The loop reads the slots `0 .. bucket_cap - 1`. -/
def fmap_grow_with (push : fmap → List Nat → List Nat → Option fmap) (map : fmap) :
    Option fmap :=
  let newcap := map.bucket_cap * 2
  let tmp := (fmap_init_num map map.key1_size map.key2_size map.hashfunc (to_int32 newcap)).1
  if map.buckets.length < map.bucket_cap then none
  else
    match (map.buckets.take map.bucket_cap).flatten.foldl
        (fun acc entry => acc.bind (fun t => push t entry.key entry.value)) (some tmp) with
    | none => none
    | some tmp => some { map with buckets := tmp.buckets
                                  buckets_by := tmp.buckets_by
                                  bucket_cap := newcap }

/-- The function `fmap_push`.  The first argument bounds the depth of the
recursion through `fmap_grow`. -/
def fmap_push : Nat → fmap → List Nat → List Nat → Option fmap
  | 0, _, _, _ => none
  | fuel + 1, map, key, val =>
    let grown :=
      if map.bucket_cap ≠ 0 ∧ map.num_buckets ≠ 0 then
        if load_factor_exceeds map.num_buckets map.bucket_cap then
          fmap_grow_with (fmap_push fuel) map
        else some map
      else some map
    grown.bind (fun map =>
      if map.bucket_cap = 0 then none
      else
        let hash := to_uint32 (c_abs (to_int32 (map.hashfunc key map.key1_size)))
        let idx := (to_size_t (c_abs (to_int32 hash)) % map.bucket_cap) % 2 ^ 32
        fmap_new_entry map key hash val idx)

/-- The function `fmap_grow`. -/
def fmap_grow (fuel : Nat) (map : fmap) : Option fmap :=
  fmap_grow_with (fmap_push fuel) map

/-- The function `fmap_new_entryp`; the address returned is the value region
of the new block. -/
def fmap_new_entryp (map : fmap) (key : List Nat) (hash : Nat) (idx : Nat) (junk : List Nat) :
    Option (fmap × Ptr) :=
  match map.buckets[idx]? with
  | none => none
  | some [] =>
    let new_bucket := fmap_initialize_fmapentryp map (alloc_entry map junk) hash key
    some ({ map with buckets := map.buckets.set idx [new_bucket.1]
                     num_buckets := map.num_buckets + 1 },
          { slot := idx, pos := 0, off := new_bucket.2 })
  | some (head :: rest) =>
    let entry := fmap_initialize_fmapentryp map (alloc_entry map junk) hash key
    some ({ map with buckets := map.buckets.set idx ((head :: rest) ++ [entry.1]) },
          { slot := idx, pos := (head :: rest).length, off := entry.2 })

/-- The function `fmap_pushp`.  `junk` is the content of the value region of
the block the allocator hands out. -/
def fmap_pushp : Nat → fmap → List Nat → List Nat → Option (fmap × Ptr)
  | 0, _, _, _ => none
  | fuel + 1, map, key, junk =>
    let grown :=
      if map.bucket_cap ≠ 0 ∧ map.num_buckets ≠ 0 then
        if load_factor_exceeds map.num_buckets map.bucket_cap then
          fmap_grow fuel map
        else some map
      else some map
    grown.bind (fun map =>
      if map.bucket_cap = 0 then none
      else
        let hash := to_uint32 (c_abs (to_int32 (map.hashfunc key map.key1_size)))
        let idx := (to_size_t (c_abs (to_int32 hash)) % map.bucket_cap) % 2 ^ 32
        fmap_new_entryp map key hash idx junk)

/-! ## Lookup -/

/-- The function `fmap_get_value_from_fmapentry`, as an offset into the block. -/
def fmap_get_value_from_fmapentry (map : fmap) : Nat := header_size + map.key1_size

/-- The function `fmap_get_key_from_fmapentry`: the key bytes of the block. -/
def fmap_get_key_from_fmapentry (_map : fmap) (entry : fmapentry) : List Nat := entry.key

/-- The `do ... while` loop of `fmap_get`, entered with `entry` at position
`pos` of the chain of slot `idx` and `next` the blocks after it. -/
def fmap_get_loop (map : fmap) (key : List Nat) (idx : Nat) :
    Nat → fmapentry → List fmapentry → Option Ptr
  | _, _, [] =>
    -- `entry->next == NULL`: the value region of the block `*bucket_ptr`
    some { slot := idx, pos := 0, off := header_size + map.key1_size }
  | pos, entry, nxt :: rest =>
    if key.take map.key1_size = (fmap_get_key_from_fmapentry map entry).take map.key1_size then
      -- `return entry;`
      some { slot := idx, pos := pos, off := 0 }
    else
      match rest with
      | [] => none          -- `entry = entry->next`, and the loop condition fails
      | _ :: _ => fmap_get_loop map key idx (pos + 1) nxt rest

/-- The function `fmap_get`; the inner `none` is the `NULL` result. -/
def fmap_get (map : fmap) (key : List Nat) : Option (Option Ptr) :=
  if map.bucket_cap = 0 then none
  else
    let hash := to_uint32 (c_abs (to_int32 (map.hashfunc key map.key1_size)))
    let idx := (to_size_t (c_abs (to_int32 hash)) % map.bucket_cap) % 2 ^ 32
    match map.buckets[idx]? with
    | none => none
    | some [] => some none
    | some (entry :: rest) => some (fmap_get_loop map key idx 0 entry rest)

/-! ## Teardown -/

/-- The function `fmap_free`: the release calls it makes, in order, each as the
provenance of the block and the function it is handed to. -/
def fmap_free (map : fmap) : Option (List (AllocFn × FreeFn)) :=
  if map.buckets.length < map.bucket_cap then none
  else
    some ((map.buckets.take map.bucket_cap).flatten.map (fun entry => (entry.alloc_by, map.freefunc))
      ++ [(map.buckets_by, map.freefunc)])

/-! ## Client-side access to a returned address -/

/-- The `key2_size` bytes found at address `p`, when `p` is the value region of
a block of the table.  Other addresses point into header or key bytes, whose
content is not part of this description. -/
def load_value (map : fmap) (p : Ptr) : Option (List Nat) :=
  if p.off = header_size + map.key1_size then
    (map.buckets[p.slot]?).bind (fun chain => (chain[p.pos]?).map (fun entry => entry.value))
  else none

/-- The caller copying `key2_size` bytes of `v` to address `p`, the value
region of a block of the table. -/
def store_value (map : fmap) (p : Ptr) (v : List Nat) : Option fmap :=
  if p.off = header_size + map.key1_size then
    (map.buckets[p.slot]?).bind (fun chain => (chain[p.pos]?).map (fun entry =>
      let written := chain.set p.pos { entry with value := v.take map.key2_size }
      { map with buckets := map.buckets.set p.slot written }))
  else none

/-! ## Scenarios -/

/-- The four bytes of a `uint32_t`, least significant first. -/
def key32 (k : Nat) : List Nat :=
  [k % 256, k / 256 % 256, k / 65536 % 256, k / 16777216 % 256]

/-- The eight bytes of a `uint64_t`, least significant first. -/
def val64 (v : Nat) : List Nat := key32 v ++ key32 (v / 2 ^ 32)

/-- The hash function that reads a 4-byte key as a `uint32_t`. -/
def hash_u32 (key : List Nat) (_len : Nat) : Nat :=
  (key.take 4).foldr (fun b acc => b + 256 * acc) 0

/-- A table handle that has not been initialised. -/
def blank : fmap :=
  { key1_size := 0, key2_size := 0, mapentry_size := 0, bucket_cap := 0, num_buckets := 0,
    buckets := [], buckets_by := AllocFn.malloc, allocfunc := AllocFn.malloc,
    freefunc := FreeFn.free, hashfunc := fun _ _ => 0 }

/-- The table after `fmap_init(&map, 4, 8, hash_u32)`. -/
def table16 : fmap := (fmap_init blank 4 8 hash_u32).1

/-- The table after `fmap_init_num(&map, 4, 8, hash_u32, 3)`. -/
def table3 : fmap := (fmap_init_num blank 4 8 hash_u32 3).1

/-- The calls `fmap_push(&map, &k, &v)` with `v = 2 * k`, for the keys `k` of
the list in turn. -/
def push_keys (fuel : Nat) (map : fmap) (keys : List Nat) : Option fmap :=
  keys.foldl (fun acc k => acc.bind (fun t => fmap_push fuel t (key32 k) (val64 (2 * k))))
    (some map)

/-- The keys and values of all blocks in the slots `0 .. bucket_cap - 1`. -/
def contents (map : fmap) : List (List Nat × List Nat) :=
  (map.buckets.take map.bucket_cap).flatten.map (fun entry => (entry.key, entry.value))

/-- Fifty keys that fill a table of default capacity to the point where the
next growth makes its temporary table grow in turn: at capacity 16 they
occupy 13 slots, the push of 13 grows the table to capacity 32, and the keys
96 .. 114 are chained behind the keys 0 .. 18. -/
def crowded_keys : List Nat :=
  [0, 1, 2, 3, 4, 5, 6, 7, 8, 9, 10, 11] ++ [16, 17, 18, 19, 20, 21, 22] ++ [12] ++
  [13, 14, 15, 23, 24, 25, 26, 27, 28, 29, 30] ++
  [96, 97, 98, 99, 100, 101, 102, 103, 104, 105, 106, 107, 108, 109, 110, 111, 112, 113, 114]

/-- The keys of `crowded_keys`, then 31, which occupies the 25th counted slot,
and 63, whose push grows the table. -/
def nested_keys : List Nat := crowded_keys ++ [31, 63]

/-- Keys pushed after `nested_keys`: 32 .. 54 fill empty slots until the
counter exceeds three quarters of 64, and the push of 55 grows the table again. -/
def later_keys : List Nat :=
  [32, 33, 34, 35, 36, 37, 38, 39, 40, 41, 42, 43, 44, 45, 46, 47, 48, 49, 50, 51, 52, 53, 54, 55]

/-- Slots `first, first + 1, ...`, `count` of them, each holding one block whose
key is the slot index and whose value is twice the key. -/
def occupied_slots : Nat → Nat → List (List fmapentry)
  | 0, _ => []
  | count + 1, first =>
    [{ hash := first, key := key32 first, value := val64 (2 * first),
       alloc_by := AllocFn.malloc }] :: occupied_slots count (first + 1)

/-- The table of `2 ^ 23 + 1` slots whose first `n` slots hold one block each,
for the keys `0 .. n - 1`, and whose counter is `n`. -/
def filled_table (n : Nat) : fmap :=
  { key1_size := 4, key2_size := 8, mapentry_size := 28, bucket_cap := 8388609,
    num_buckets := n,
    buckets := occupied_slots n 0 ++ List.replicate (8388609 - n) [],
    buckets_by := AllocFn.calloc, allocfunc := AllocFn.malloc, freefunc := FreeFn.free,
    hashfunc := hash_u32 }

/-- The table reached from `fmap_init_num(&map, 4, 8, hash_u32, 8388609)` by
pushing the keys `0 .. 6291456` in turn: 6291457 of the `2 ^ 23 + 1` slots hold
one block each. -/
def table_large : fmap := filled_table 6291457

/-- Insertion as the steps of `fmap_push` after the growth decision describe
it: hash, index, new entry, on the table as it stands. -/
def insert_entry (map : fmap) (key val : List Nat) : Option fmap :=
  if map.bucket_cap = 0 then none
  else
    let hash := to_uint32 (c_abs (to_int32 (map.hashfunc key map.key1_size)))
    let idx := (to_size_t (c_abs (to_int32 hash)) % map.bucket_cap) % 2 ^ 32
    fmap_new_entry map key hash val idx

/-- The same steps for `fmap_pushp`. -/
def insert_entryp (map : fmap) (key junk : List Nat) : Option (fmap × Ptr) :=
  if map.bucket_cap = 0 then none
  else
    let hash := to_uint32 (c_abs (to_int32 (map.hashfunc key map.key1_size)))
    let idx := (to_size_t (c_abs (to_int32 hash)) % map.bucket_cap) % 2 ^ 32
    fmap_new_entryp map key hash idx junk

/-! ## Predicates on tables -/

/-- The index that `fmap_get` computes for `key` on the table as it stands. -/
def lookup_index (map : fmap) (key : List Nat) : Nat :=
  to_size_t (c_abs (to_int32 (to_uint32 (c_abs (to_int32
    (map.hashfunc key map.key1_size)))))) % map.bucket_cap % 2 ^ 32

/-- Number of slots of the bucket array that hold a chain. -/
def occupied_count (map : fmap) : Nat :=
  (map.buckets.filter (fun chain => !chain.isEmpty)).length

/-- Every block of the bucket array sits in the slot that `fmap_get` computes
for its key. -/
def placement_holds (map : fmap) : Bool :=
  (List.range map.buckets.length).all (fun i =>
    (map.buckets[i]?.getD []).all (fun entry => lookup_index map entry.key == i))

/-- Every chain of the bucket array has at most one block. -/
def chains_single (map : fmap) : Bool :=
  map.buckets.all (fun chain => chain.length ≤ 1)

/-- Slot and key of the blocks that sit in another slot than `fmap_get`
computes for their key. -/
def misplaced (map : fmap) : List (Nat × List Nat) :=
  (List.range map.buckets.length).flatMap (fun i =>
    ((map.buckets[i]?.getD []).filter (fun entry => lookup_index map entry.key != i)).map
      (fun entry => (i, entry.key)))

/-- The fresh table of capacity 16 after `push(1, 2)`. -/
def table_one : fmap := (push_keys 1 table16 [1]).getD blank

/-- The fresh table of capacity 16 after `push` of the keys 1, 2, 3, 4, 5. -/
def table_five : fmap := (push_keys 1 table16 [1, 2, 3, 4, 5]).getD blank

/-- The value `|h|` as the specification words it: the 32-bit `h` read as a signed
integer and made positive, `h` for `h < 2 ^ 31` and `2 ^ 32 - h` above. -/
def abs_signed (h : Nat) : Nat := if h < 2 ^ 31 then h else 2 ^ 32 - h

/-- Number of blocks in the whole bucket array. -/
def total_entries (map : fmap) : Nat := map.buckets.flatten.length

/-- A table whose `bucket_cap` is not zero, fits a `size_t` and does not exceed
the length of the bucket array, and whose counter and number of blocks are at
most `a`. -/
def in_range (map : fmap) (a : Nat) : Prop :=
  map.bucket_cap ≠ 0 ∧ map.bucket_cap ≤ map.buckets.length ∧ map.bucket_cap < 2 ^ 64 ∧
  map.num_buckets ≤ a ∧ total_entries map ≤ a

/-- One insertion call: `fmap_push(&map, key, val)`, or `fmap_pushp(&map, key)`
with the content `junk` of the value region the allocator hands out. -/
inductive Call where
  | push (key val : List Nat)
  | push_slot (key junk : List Nat)

/-- The key of an insertion call. -/
def Call.key : Call → List Nat
  | Call.push key _ => key
  | Call.push_slot key _ => key

/-- One insertion call made on the table; the address that `fmap_pushp`
returns is dropped. -/
def run_call (fuel : Nat) (map : fmap) : Call → Option fmap
  | Call.push key val => fmap_push fuel map key val
  | Call.push_slot key junk => (fmap_pushp fuel map key junk).map (fun r => r.1)

/-- The calls of the list made in turn on the table. -/
def run_calls (fuel : Nat) (map : fmap) (calls : List Call) : Option fmap :=
  calls.foldl (fun acc call => acc.bind (fun t => run_call fuel t call)) (some map)

/-- One insertion call with the growth decision left out: hash, index and new
entry on the table as it stands. -/
def insert_call (map : fmap) : Call → Option fmap
  | Call.push key val => insert_entry map key val
  | Call.push_slot key junk => (insert_entryp map key junk).map (fun r => r.1)

/-- The calls of the list in turn, none of them growing the table. -/
def run_inserts (map : fmap) (calls : List Call) : Option fmap :=
  calls.foldl (fun acc call => acc.bind (fun t => insert_call t call)) (some map)

/-- State of a table `t` that started as `fresh` and received insertions into
the slots listed in `seen` without ever growing: capacity, array length, hash
function and key size are those of `fresh`, the counter is the number of
distinct slots in `seen`, these are the slots that hold a chain, and there are
as many blocks as insertions. -/
def never_grown (fresh t : fmap) (seen : List Nat) : Prop :=
  t.bucket_cap = fresh.bucket_cap ∧ t.buckets.length = fresh.bucket_cap ∧
  t.hashfunc = fresh.hashfunc ∧ t.key1_size = fresh.key1_size ∧
  t.num_buckets = seen.toFinset.card ∧
  (∀ j ∈ seen, ∃ chain, t.buckets[j]? = some chain ∧ chain ≠ []) ∧
  (∀ j chain, t.buckets[j]? = some chain → chain ≠ [] → j ∈ seen) ∧
  total_entries t = seen.length

/-- The calls `fmap_push(&map, &k, &v)` with `v = 2 * k`, for `k = 0 .. n - 1`
in turn. -/
def distinct_calls (n : Nat) : List Call :=
  (List.range n).map (fun k => Call.push (key32 k) (val64 (2 * k)))

/-- The table after `fmap_init_num(&map, 4, 8, hash_u32, 22369637)`. -/
def table_wide : fmap := (fmap_init_num blank 4 8 hash_u32 22369637).1

/-! ## Properties of the single precision model -/

theorem bit_length_spec (fuel : Nat) : ∀ n : Nat, 0 < n → n ≤ fuel →
    1 ≤ bit_length fuel n ∧ 2 ^ (bit_length fuel n - 1) ≤ n ∧ n < 2 ^ bit_length fuel n := by
  induction fuel with
  | zero => intro n h0 h1; omega
  | succ fuel ih =>
    intro n h0 h1
    have hn : n ≠ 0 := by omega
    simp only [bit_length, if_neg hn]
    by_cases h2 : n / 2 = 0
    · have hn1 : n = 1 := by omega
      subst hn1
      have hz : bit_length fuel (1 / 2) = 0 := by
        cases fuel <;> simp [bit_length]
      rw [hz]
      decide
    · have hpos : 0 < n / 2 := Nat.pos_of_ne_zero h2
      have hle : n / 2 ≤ fuel := by omega
      obtain ⟨hb1, hb2, hb3⟩ := ih (n / 2) hpos hle
      refine ⟨by omega, ?_, ?_⟩
      · have : bit_length fuel (n / 2) + 1 - 1 = (bit_length fuel (n / 2) - 1) + 1 := by omega
        rw [this, pow_succ]
        omega
      · rw [pow_succ]
        omega

theorem ilog2_spec (n : Nat) (h : 0 < n) : 2 ^ ilog2 n ≤ n ∧ n < 2 ^ (ilog2 n + 1) := by
  obtain ⟨h1, h2, h3⟩ := bit_length_spec n n h (le_refl n)
  unfold ilog2
  refine ⟨h2, ?_⟩
  have : bit_length n n - 1 + 1 = bit_length n n := by omega
  rw [this]
  exact h3

theorem f32_exponent_spec (num den : Nat) (hn : 0 < num) (hd : 0 < den)
    (hlog : ilog2 den ≤ 126 + ilog2 num) :
    den * 2 ^ (f32_exponent num den + 23) ≤ num * 2 ^ 150 ∧
    num * 2 ^ 150 < den * 2 ^ (f32_exponent num den + 24) := by
  obtain ⟨ha1, ha2⟩ := ilog2_spec num hn
  obtain ⟨hb1, hb2⟩ := ilog2_spec den hd
  have hup : num * 2 ^ 150 < den * 2 ^ (127 + ilog2 num - ilog2 den + 24) := by
    calc num * 2 ^ 150 < 2 ^ (ilog2 num + 1) * 2 ^ 150 :=
          Nat.mul_lt_mul_of_pos_right ha2 (by positivity)
      _ = 2 ^ ilog2 den * 2 ^ (127 + ilog2 num - ilog2 den + 24) := by
          rw [← pow_add, ← pow_add]; congr 1; omega
      _ ≤ den * 2 ^ (127 + ilog2 num - ilog2 den + 24) := Nat.mul_le_mul_right _ hb1
  have hlow : den * 2 ^ (127 + ilog2 num - ilog2 den - 1 + 23) ≤ num * 2 ^ 150 := by
    calc den * 2 ^ (127 + ilog2 num - ilog2 den - 1 + 23)
          ≤ 2 ^ (ilog2 den + 1) * 2 ^ (127 + ilog2 num - ilog2 den - 1 + 23) :=
          Nat.mul_le_mul_right _ (le_of_lt hb2)
      _ = 2 ^ ilog2 num * 2 ^ 150 := by
          rw [← pow_add, ← pow_add]; congr 1; omega
      _ ≤ num * 2 ^ 150 := Nat.mul_le_mul_right _ ha1
  by_cases hc : num * 2 ^ 150 < den * 2 ^ (127 + ilog2 num - ilog2 den + 23)
  · have he : f32_exponent num den = 127 + ilog2 num - ilog2 den - 1 := by
      simp only [f32_exponent, if_pos hc]
    rw [he]
    refine ⟨hlow, ?_⟩
    have : 127 + ilog2 num - ilog2 den - 1 + 24 = 127 + ilog2 num - ilog2 den + 23 := by omega
    rw [this]
    exact hc
  · have he : f32_exponent num den = 127 + ilog2 num - ilog2 den := by
      simp only [f32_exponent, if_neg hc]
    rw [he]
    exact ⟨by omega, hup⟩

theorem round_nearest_even_ge (n d : Nat) : n / d ≤ round_nearest_even n d := by
  unfold round_nearest_even
  simp only []
  split_ifs <;> omega

theorem round_nearest_even_le (n d : Nat) : round_nearest_even n d ≤ n / d + 1 := by
  unfold round_nearest_even
  simp only []
  split_ifs <;> omega

theorem round_nearest_even_exact (n d : Nat) (hd : 0 < d) (h : n % d = 0) :
    round_nearest_even n d = n / d := by
  unfold round_nearest_even
  simp only [h]
  rw [if_pos (by omega)]

theorem round_nearest_even_up (n d : Nat) (h : d < 2 * (n % d)) :
    round_nearest_even n d = n / d + 1 := by
  unfold round_nearest_even
  simp only []
  rw [if_neg (by omega), if_pos h]

theorem ilog2_one : ilog2 1 = 0 := by decide

theorem f32_of_nat_exact (n : Nat) (h0 : 0 < n) (h24 : n < 2 ^ 24) : f32_of_nat n = n := by
  obtain ⟨h1, h2⟩ := f32_exponent_spec n 1 h0 (by decide) (by rw [ilog2_one]; omega)
  have he : f32_exponent n 1 ≤ 150 := by
    by_contra hcon
    have h3 : 2 ^ 174 ≤ 2 ^ (f32_exponent n 1 + 23) := Nat.pow_le_pow_right (by decide) (by omega)
    have h4 : n * 2 ^ 150 < 2 ^ 24 * 2 ^ 150 := Nat.mul_lt_mul_of_pos_right h24 (by positivity)
    have h5 : (2 : Nat) ^ 24 * 2 ^ 150 = 2 ^ 174 := by rw [← pow_add]
    omega
  have hsplit : n * 2 ^ 150 = n * 2 ^ (150 - f32_exponent n 1) * (1 * 2 ^ f32_exponent n 1) := by
    have hsum : 150 - f32_exponent n 1 + f32_exponent n 1 = 150 := by omega
    rw [one_mul, mul_assoc, ← pow_add, hsum]
  have hpos : 0 < 1 * 2 ^ f32_exponent n 1 := by positivity
  have hmod : n * 2 ^ 150 % (1 * 2 ^ f32_exponent n 1) = 0 := by
    rw [hsplit]
    exact Nat.mul_mod_left _ _
  have hdiv : n * 2 ^ 150 / (1 * 2 ^ f32_exponent n 1) = n * 2 ^ (150 - f32_exponent n 1) := by
    rw [hsplit]
    exact Nat.mul_div_left _ hpos
  unfold f32_of_nat f32_round
  simp only []
  rw [round_nearest_even_exact _ _ hpos hmod, hdiv, mul_assoc, ← pow_add]
  have : 150 - f32_exponent n 1 + f32_exponent n 1 = 150 := by omega
  rw [this]
  exact Nat.mul_div_left _ (by positivity)

theorem f32_of_nat_large (n : Nat) (h24 : 2 ^ 24 ≤ n) : 2 ^ 24 ≤ f32_of_nat n := by
  have h0 : 0 < n := lt_of_lt_of_le (by positivity) h24
  obtain ⟨h1, h2⟩ := f32_exponent_spec n 1 h0 (by decide) (by rw [ilog2_one]; omega)
  have he : 151 ≤ f32_exponent n 1 := by
    by_contra hcon
    have h3 : 2 ^ (f32_exponent n 1 + 24) ≤ 2 ^ 174 := Nat.pow_le_pow_right (by decide) (by omega)
    have h4 : 2 ^ 24 * 2 ^ 150 ≤ n * 2 ^ 150 := Nat.mul_le_mul_right _ h24
    have h5 : (2 : Nat) ^ 24 * 2 ^ 150 = 2 ^ 174 := by rw [← pow_add]
    omega
  have hpos : 0 < 1 * 2 ^ f32_exponent n 1 := by positivity
  have hq : 2 ^ 23 ≤ n * 2 ^ 150 / (1 * 2 ^ f32_exponent n 1) := by
    rw [Nat.le_div_iff_mul_le hpos]
    calc 2 ^ 23 * (1 * 2 ^ f32_exponent n 1) = 1 * 2 ^ (f32_exponent n 1 + 23) := by
          rw [pow_add]; ring
      _ ≤ n * 2 ^ 150 := h1
  have hm := le_trans hq (round_nearest_even_ge (n * 2 ^ 150) (1 * 2 ^ f32_exponent n 1))
  unfold f32_of_nat f32_round
  simp only []
  rw [Nat.le_div_iff_mul_le (by positivity)]
  calc 2 ^ 24 * 2 ^ 150 = 2 ^ 23 * 2 ^ 151 := by rw [← pow_add, ← pow_add]
    _ ≤ round_nearest_even (n * 2 ^ 150) (1 * 2 ^ f32_exponent n 1) * 2 ^ f32_exponent n 1 :=
        Nat.mul_le_mul hm (Nat.pow_le_pow_right (by decide) he)

theorem ilog2_le_of_le_pow (c k : Nat) (hc : 0 < c) (h : c ≤ 2 ^ k) : ilog2 c ≤ k := by
  by_contra hcon
  have h1 := (ilog2_spec c hc).1
  have h2 : 2 ^ (k + 1) ≤ 2 ^ ilog2 c := Nat.pow_le_pow_right (by decide) (by omega)
  have h3 : 2 ^ (k + 1) = 2 * 2 ^ k := by rw [pow_succ]; ring
  have h4 : 0 < 2 ^ k := by positivity
  omega

theorem f32_quotient_not_exceeds (A c : Nat) (hA : 0 < A) (hc : 0 < c)
    (hlog : ilog2 c ≤ 126 + ilog2 A) (hle : 4 * A ≤ 3 * c) :
    4 * ((f32_round A c).1 * 2 ^ (f32_round A c).2) ≤ 3 * 2 ^ 150 := by
  obtain ⟨h1, h2⟩ := f32_exponent_spec A c hA hc hlog
  have he : f32_exponent A c + 23 < 150 := by
    by_contra hcon
    have h3 : 2 ^ 150 ≤ 2 ^ (f32_exponent A c + 23) := Nat.pow_le_pow_right (by decide) (by omega)
    have h4 : c * 2 ^ 150 ≤ A * 2 ^ 150 := le_trans (Nat.mul_le_mul_left _ h3) h1
    have h5 : c ≤ A := Nat.le_of_mul_le_mul_right h4 (by positivity)
    omega
  have hT : 3 * 2 ^ (148 - f32_exponent A c) * 2 ^ f32_exponent A c = 3 * 2 ^ 148 := by
    have hsum : 148 - f32_exponent A c + f32_exponent A c = 148 := by omega
    rw [mul_assoc, ← pow_add, hsum]
  have hXT : A * 2 ^ 150 ≤ c * 2 ^ f32_exponent A c * (3 * 2 ^ (148 - f32_exponent A c)) := by
    have h3 : c * 2 ^ f32_exponent A c * (3 * 2 ^ (148 - f32_exponent A c))
        = c * (3 * 2 ^ (148 - f32_exponent A c) * 2 ^ f32_exponent A c) := by ring
    rw [h3, hT]
    have h4 : A * 2 ^ 150 = (4 * A) * 2 ^ 148 := by norm_num; ring
    have h5 : c * (3 * 2 ^ 148) = (3 * c) * 2 ^ 148 := by ring
    rw [h4, h5]
    exact Nat.mul_le_mul_right _ hle
  have hq : A * 2 ^ 150 / (c * 2 ^ f32_exponent A c) ≤ 3 * 2 ^ (148 - f32_exponent A c) :=
    Nat.div_le_of_le_mul hXT
  have hdpos : 0 < c * 2 ^ f32_exponent A c := by positivity
  have hm : round_nearest_even (A * 2 ^ 150) (c * 2 ^ f32_exponent A c)
      ≤ 3 * 2 ^ (148 - f32_exponent A c) := by
    rcases Nat.lt_or_ge (A * 2 ^ 150 / (c * 2 ^ f32_exponent A c))
        (3 * 2 ^ (148 - f32_exponent A c)) with hlt | hge
    · have := round_nearest_even_le (A * 2 ^ 150) (c * 2 ^ f32_exponent A c)
      omega
    · have hqe : A * 2 ^ 150 / (c * 2 ^ f32_exponent A c) = 3 * 2 ^ (148 - f32_exponent A c) :=
        le_antisymm hq hge
      have hdm := Nat.div_add_mod (A * 2 ^ 150) (c * 2 ^ f32_exponent A c)
      rw [hqe] at hdm
      have hmod : A * 2 ^ 150 % (c * 2 ^ f32_exponent A c) = 0 := by omega
      rw [round_nearest_even_exact _ _ hdpos hmod, hqe]
  unfold f32_round
  simp only []
  calc 4 * (round_nearest_even (A * 2 ^ 150) (c * 2 ^ f32_exponent A c) * 2 ^ f32_exponent A c)
        ≤ 4 * (3 * 2 ^ (148 - f32_exponent A c) * 2 ^ f32_exponent A c) :=
        Nat.mul_le_mul_left _ (Nat.mul_le_mul_right _ hm)
    _ = 3 * 2 ^ 150 := by rw [hT]; norm_num

theorem f32_quotient_exceeds (A c : Nat) (hc : 0 < c) (hc23 : c ≤ 2 ^ 23)
    (hlt : 3 * c < 4 * A) :
    3 * 2 ^ 150 < 4 * ((f32_round A c).1 * 2 ^ (f32_round A c).2) := by
  have hA : 0 < A := by omega
  have hlog : ilog2 c ≤ 126 + ilog2 A := by
    have := ilog2_le_of_le_pow c 23 hc hc23
    omega
  obtain ⟨h1, h2⟩ := f32_exponent_spec A c hA hc hlog
  have he : 126 ≤ f32_exponent A c := by
    by_contra hcon
    have h3 : 2 ^ (f32_exponent A c + 24) ≤ 2 ^ 149 := Nat.pow_le_pow_right (by decide) (by omega)
    have h4 : A * 2 ^ 150 < c * 2 ^ 149 := lt_of_lt_of_le h2 (Nat.mul_le_mul_left _ h3)
    have h5 : A * 2 ^ 150 = (2 * A) * 2 ^ 149 := by norm_num; ring
    rw [h5] at h4
    have h6 : 2 * A < c := Nat.lt_of_mul_lt_mul_right h4
    omega
  have hdpos : 0 < c * 2 ^ f32_exponent A c := by positivity
  have hq : 2 ^ 23 ≤ A * 2 ^ 150 / (c * 2 ^ f32_exponent A c) := by
    rw [Nat.le_div_iff_mul_le hdpos]
    calc 2 ^ 23 * (c * 2 ^ f32_exponent A c) = c * 2 ^ (f32_exponent A c + 23) := by
          rw [pow_add]; ring
      _ ≤ A * 2 ^ 150 := h1
  have hmq := round_nearest_even_ge (A * 2 ^ 150) (c * 2 ^ f32_exponent A c)
  unfold f32_round
  simp only []
  rcases Nat.lt_or_ge 126 (f32_exponent A c) with hbig | hsmall
  · -- the quotient is at least 1
    have h3 : 2 ^ 127 ≤ 2 ^ f32_exponent A c := Nat.pow_le_pow_right (by decide) (by omega)
    have h4 : 2 ^ 23 * 2 ^ 127
        ≤ round_nearest_even (A * 2 ^ 150) (c * 2 ^ f32_exponent A c) * 2 ^ f32_exponent A c :=
      Nat.mul_le_mul (le_trans hq hmq) h3
    have h5 : (2 : Nat) ^ 23 * 2 ^ 127 = 2 ^ 150 := by rw [← pow_add]
    have h6 : 0 < 2 ^ 150 := by positivity
    omega
  · -- the quotient lies in [1/2, 1): one unit of the significand is 2 ^ (-24)
    have he126 : f32_exponent A c = 126 := by omega
    rw [he126] at hmq hq ⊢
    have hX : A * 2 ^ 150 = (A * 2 ^ 24) * 2 ^ 126 := by rw [mul_assoc, ← pow_add]
    have hP : 0 < 2 ^ 126 := by positivity
    have hdiv : A * 2 ^ 150 / (c * 2 ^ 126) = A * 2 ^ 24 / c := by
      rw [hX]; exact Nat.mul_div_mul_right _ _ hP
    have hmod : A * 2 ^ 150 % (c * 2 ^ 126) = A * 2 ^ 24 % c * 2 ^ 126 := by
      rw [hX]; exact Nat.mul_mod_mul_right _ _ _
    have hY : 3 * 2 ^ 22 * c + 2 ^ 22 ≤ A * 2 ^ 24 := by
      norm_num
      omega
    have hqT : 3 * 2 ^ 22 ≤ A * 2 ^ 24 / c := by
      rw [Nat.le_div_iff_mul_le hc]
      omega
    have hm : 3 * 2 ^ 22 + 1 ≤ round_nearest_even (A * 2 ^ 150) (c * 2 ^ 126) := by
      rcases Nat.lt_or_ge (3 * 2 ^ 22) (A * 2 ^ 24 / c) with hgt | hle
      · rw [hdiv] at hmq
        omega
      · have hqe : A * 2 ^ 24 / c = 3 * 2 ^ 22 := le_antisymm hle hqT
        have hdm := Nat.div_add_mod (A * 2 ^ 24) c
        rw [hqe] at hdm
        have hr : c < 2 * (A * 2 ^ 24 % c) := by
          generalize A * 2 ^ 24 % c = r at hdm ⊢
          rcases Nat.lt_or_ge c (2 ^ 23) with hc1 | hc2
          · omega
          · have hceq : c = 8388608 := by omega
            subst hceq
            omega
        have hup : c * 2 ^ 126 < 2 * (A * 2 ^ 150 % (c * 2 ^ 126)) := by
          rw [hmod]
          calc c * 2 ^ 126 < 2 * (A * 2 ^ 24 % c) * 2 ^ 126 := Nat.mul_lt_mul_of_pos_right hr hP
            _ = 2 * (A * 2 ^ 24 % c * 2 ^ 126) := by ring
        rw [round_nearest_even_up _ _ hup, hdiv, hqe]
    calc 3 * 2 ^ 150 < 4 * ((3 * 2 ^ 22 + 1) * 2 ^ 126) := by norm_num
      _ ≤ 4 * (round_nearest_even (A * 2 ^ 150) (c * 2 ^ 126) * 2 ^ 126) :=
          Nat.mul_le_mul_left _ (Nat.mul_le_mul_right _ hm)

theorem load_factor_exceeds_iff (n c : Nat) (hn : 0 < n) (hc : 0 < c) (hc23 : c ≤ 2 ^ 23) :
    load_factor_exceeds n c = true ↔ 3 * c < 4 * n := by
  have hcx : f32_of_nat c = c := f32_of_nat_exact c hc (by
    have : (2 : Nat) ^ 23 < 2 ^ 24 := by norm_num
    omega)
  unfold load_factor_exceeds
  simp only [hcx, decide_eq_true_eq]
  rcases Nat.lt_or_ge n (2 ^ 24) with hsm | hbig
  · rw [f32_of_nat_exact n hn hsm]
    constructor
    · intro h
      by_contra hcon
      have hlog : ilog2 c ≤ 126 + ilog2 n := by
        have := ilog2_le_of_le_pow c 23 hc hc23
        omega
      have := f32_quotient_not_exceeds n c hn hc hlog (by omega)
      omega
    · exact f32_quotient_exceeds n c hc hc23
  · have hf := f32_of_nat_large n hbig
    have h23 : (2 : Nat) ^ 24 = 2 * 2 ^ 23 := by norm_num
    constructor
    · intro _
      omega
    · intro _
      exact f32_quotient_exceeds (f32_of_nat n) c hc hc23 (by omega)

theorem load_factor_not_exceeds (n c : Nat) (hn : 0 < n) (hn24 : n < 2 ^ 24) (hc : 0 < c)
    (hc24 : c < 2 ^ 24) (hle : 4 * n ≤ 3 * c) : load_factor_exceeds n c = false := by
  have hlog : ilog2 c ≤ 126 + ilog2 n := by
    have := ilog2_le_of_le_pow c 24 hc (le_of_lt hc24)
    omega
  have h := f32_quotient_not_exceeds n c hn hc hlog hle
  unfold load_factor_exceeds
  simp only [f32_of_nat_exact n hn hn24, f32_of_nat_exact c hc hc24, decide_eq_false_iff_not]
  omega

/-! ## Shape of the insertion functions -/

theorem fmap_push_unfold (fuel : Nat) (map : fmap) (key val : List Nat) :
    fmap_push (fuel + 1) map key val =
      (if map.bucket_cap ≠ 0 ∧ map.num_buckets ≠ 0 ∧
          load_factor_exceeds map.num_buckets map.bucket_cap = true
        then fmap_grow fuel map else some map).bind (fun m => insert_entry m key val) := by
  simp only [fmap_push, fmap_grow, insert_entry]
  by_cases h1 : map.bucket_cap ≠ 0 ∧ map.num_buckets ≠ 0
  · by_cases h2 : load_factor_exceeds map.num_buckets map.bucket_cap = true
    · rw [if_pos h1, if_pos h2, if_pos ⟨h1.1, h1.2, h2⟩]
    · rw [if_pos h1, if_neg h2, if_neg (fun h => h2 h.2.2)]
  · rw [if_neg h1, if_neg (fun h => h1 ⟨h.1, h.2.1⟩)]

theorem fmap_pushp_unfold (fuel : Nat) (map : fmap) (key junk : List Nat) :
    fmap_pushp (fuel + 1) map key junk =
      (if map.bucket_cap ≠ 0 ∧ map.num_buckets ≠ 0 ∧
          load_factor_exceeds map.num_buckets map.bucket_cap = true
        then fmap_grow fuel map else some map).bind (fun m => insert_entryp m key junk) := by
  simp only [fmap_pushp, insert_entryp]
  by_cases h1 : map.bucket_cap ≠ 0 ∧ map.num_buckets ≠ 0
  · by_cases h2 : load_factor_exceeds map.num_buckets map.bucket_cap = true
    · rw [if_pos h1, if_pos h2, if_pos ⟨h1.1, h1.2, h2⟩]
    · rw [if_pos h1, if_neg h2, if_neg (fun h => h2 h.2.2)]
  · rw [if_neg h1, if_neg (fun h => h1 ⟨h.1, h.2.1⟩)]

theorem fmap_new_entry_of_slot (map : fmap) (key val : List Nat) (hash idx : Nat)
    (chain : List fmapentry) (h : map.buckets[idx]? = some chain) :
    fmap_new_entry map key hash val idx =
      some { map with
        buckets := map.buckets.set idx
          (chain ++ [fmap_initialize_fmapentry map (alloc_entry map []) hash key val])
        num_buckets := if chain = [] then map.num_buckets + 1 else map.num_buckets } := by
  unfold fmap_new_entry
  rw [h]
  cases chain with
  | nil => simp
  | cons head rest => simp

theorem fmap_new_entryp_of_slot (map : fmap) (key junk : List Nat) (hash idx : Nat)
    (chain : List fmapentry) (h : map.buckets[idx]? = some chain) :
    fmap_new_entryp map key hash idx junk =
      some ({ map with
        buckets := map.buckets.set idx
          (chain ++ [(fmap_initialize_fmapentryp map (alloc_entry map junk) hash key).1])
        num_buckets := if chain = [] then map.num_buckets + 1 else map.num_buckets },
        { slot := idx, pos := chain.length, off := header_size + map.key1_size }) := by
  unfold fmap_new_entryp
  rw [h]
  cases chain with
  | nil => simp [fmap_initialize_fmapentryp]
  | cons head rest => simp [fmap_initialize_fmapentryp]

theorem fmap_grow_with_bucket_cap (push : fmap → List Nat → List Nat → Option fmap)
    (map grown : fmap) (h : fmap_grow_with push map = some grown) :
    grown.bucket_cap = map.bucket_cap * 2 := by
  unfold fmap_grow_with at h
  simp only [] at h
  split_ifs at h
  split at h
  · cases h
  · cases h
    rfl

theorem insert_entry_bucket_cap (map after : fmap) (key val : List Nat)
    (h : insert_entry map key val = some after) : after.bucket_cap = map.bucket_cap := by
  unfold insert_entry at h
  split_ifs at h
  simp only [] at h
  unfold fmap_new_entry at h
  split at h
  · cases h
  · cases h; rfl
  · cases h; rfl

theorem occupied_slots_length (count : Nat) : ∀ first : Nat,
    (occupied_slots count first).length = count := by
  induction count with
  | zero => intro first; rfl
  | succ count ih => intro first; simp [occupied_slots, ih]

theorem insert_entry_eq (map : fmap) (key val : List Nat) (h : map.bucket_cap ≠ 0) :
    insert_entry map key val =
      fmap_new_entry map key (to_uint32 (c_abs (to_int32 (map.hashfunc key map.key1_size)))) val
        (to_size_t (c_abs (to_int32 (to_uint32 (c_abs (to_int32
          (map.hashfunc key map.key1_size)))))) % map.bucket_cap % 2 ^ 32) := by
  rw [insert_entry, if_neg h]

theorem insert_entryp_eq (map : fmap) (key junk : List Nat) (h : map.bucket_cap ≠ 0) :
    insert_entryp map key junk =
      fmap_new_entryp map key (to_uint32 (c_abs (to_int32 (map.hashfunc key map.key1_size))))
        (to_size_t (c_abs (to_int32 (to_uint32 (c_abs (to_int32
          (map.hashfunc key map.key1_size)))))) % map.bucket_cap % 2 ^ 32) junk := by
  rw [insert_entryp, if_neg h]

/-! ## A large table and how it is reached -/

theorem hash_u32_key32 (k len : Nat) (hk : k < 2 ^ 32) : hash_u32 (key32 k) len = k := by
  simp only [hash_u32, key32, List.take, List.foldr]
  omega

theorem abs_hash_small (k : Nat) (hk : k < 2 ^ 31) : to_uint32 (c_abs (to_int32 k)) = k := by
  have h1 : k % 2 ^ 32 = k := Nat.mod_eq_of_lt (by omega)
  have h2 : to_int32 k = (k : Int) := by
    unfold to_int32
    rw [h1, if_pos hk]
  rw [h2]
  unfold c_abs to_uint32
  rw [if_neg (by omega), if_neg (by omega)]
  omega

theorem index_small (k cap : Nat) (hk : k < cap) (hcap : cap < 2 ^ 31) :
    to_size_t (c_abs (to_int32 k)) % cap % 2 ^ 32 = k := by
  have h1 : k % 2 ^ 32 = k := Nat.mod_eq_of_lt (by omega)
  have h2 : to_int32 k = (k : Int) := by
    unfold to_int32
    rw [h1, if_pos (by omega)]
  have h3 : to_size_t (c_abs (to_int32 k)) = k := by
    rw [h2]
    unfold c_abs to_size_t
    rw [if_neg (by omega), if_neg (by omega)]
    omega
  rw [h3, Nat.mod_eq_of_lt hk, Nat.mod_eq_of_lt (by omega)]
theorem occupied_slots_succ (count : Nat) : ∀ first : Nat,
    occupied_slots (count + 1) first = occupied_slots count first ++
      [[(⟨first + count, key32 (first + count), val64 (2 * (first + count)),
        AllocFn.malloc⟩ : fmapentry)]] := by
  induction count with
  | zero => intro first; simp [occupied_slots]
  | succ count ih =>
    intro first
    rw [occupied_slots, ih (first + 1), occupied_slots, List.cons_append]
    have h : first + 1 + count = first + (count + 1) := by omega
    rw [h]

theorem filled_table_push (n : Nat) (hn : n < 6291457) :
    fmap_push 1 (filled_table n) (key32 n) (val64 (2 * n)) = some (filled_table (n + 1)) := by
  have hcond : ¬ ((filled_table n).bucket_cap ≠ 0 ∧ (filled_table n).num_buckets ≠ 0 ∧
      load_factor_exceeds (filled_table n).num_buckets (filled_table n).bucket_cap = true) := by
    rintro ⟨_, h0, hl⟩
    have h0' : n ≠ 0 := h0
    have hl' : load_factor_exceeds n 8388609 = true := hl
    rw [load_factor_not_exceeds n 8388609 (Nat.pos_of_ne_zero h0') (by omega) (by decide)
      (by decide) (by omega)] at hl'
    cases hl'
  have hcap0 : (filled_table n).bucket_cap ≠ 0 := by
    show (8388609 : Nat) ≠ 0
    decide
  have hh : (filled_table n).hashfunc (key32 n) (filled_table n).key1_size = n :=
    hash_u32_key32 n 4 (by omega)
  have hidx : to_size_t (c_abs (to_int32 n)) % (filled_table n).bucket_cap % 2 ^ 32 = n :=
    index_small n 8388609 (by omega) (by decide)
  have hslot : (filled_table n).buckets[n]? = some [] := by
    show (occupied_slots n 0 ++ List.replicate (8388609 - n) [])[n]? = some []
    rw [List.getElem?_append_right (by rw [occupied_slots_length]), occupied_slots_length,
      Nat.sub_self, List.getElem?_replicate, if_pos (by omega)]
  rw [show (1 : Nat) = 0 + 1 from rfl, fmap_push_unfold, if_neg hcond, Option.some_bind,
    insert_entry_eq _ _ _ hcap0, hh, abs_hash_small n (by omega), hidx,
    fmap_new_entry_of_slot _ _ _ _ _ _ hslot]
  have hrep : List.replicate (8388609 - n) ([] : List fmapentry)
      = [] :: List.replicate (8388609 - (n + 1)) [] := by
    rw [← List.replicate_succ]
    congr 1
    omega
  have hset : (occupied_slots n 0 ++ List.replicate (8388609 - n) []).set n
      ([] ++ [fmap_initialize_fmapentry (filled_table n) (alloc_entry (filled_table n) []) n
        (key32 n) (val64 (2 * n))])
      = occupied_slots (n + 1) 0 ++ List.replicate (8388609 - (n + 1)) [] := by
    rw [hrep, List.set_append, occupied_slots_length, if_neg (lt_irrefl n), Nat.sub_self,
      List.set_cons_zero, occupied_slots_succ, List.append_assoc, List.singleton_append,
      Nat.zero_add]
    rfl
  have hb : (filled_table n).buckets
      = occupied_slots n 0 ++ List.replicate (8388609 - n) [] := rfl
  rw [hb, hset, if_pos rfl]
  rfl

theorem filled_table_reached (n : Nat) (hn : n ≤ 6291457) :
    push_keys 1 (fmap_init_num blank 4 8 hash_u32 8388609).1 (List.range n)
      = some (filled_table n) := by
  induction n with
  | zero => rfl
  | succ n ih =>
    have hprev := ih (by omega)
    unfold push_keys at hprev ⊢
    rw [List.range_succ, List.foldl_append, hprev]
    exact filled_table_push n (by omega)

/-! ## Lookup after insertion -/

/-- C1 (the code departs from it): on a fresh table of capacity 16 with the
`uint32_t` hash, `push(1, 2)` and `push(17, 34)` put both keys into slot 1, and
`get(17)` then returns `NULL` although 17 was inserted and never overwritten. -/
theorem get_misses_last_of_chain :
    ((fmap_push 1 table16 (key32 1) (val64 2)).bind
      (fun m => fmap_push 1 m (key32 17) (val64 34))).bind
      (fun m => fmap_get m (key32 17)) = some none := by
  decide

/-- C2 (the code departs from it): on a fresh table of capacity 16 holding only
key 1, `get(17)` for the key 17 that was never inserted returns the value
region of the block of key 1, holding the bytes of the value 2. -/
theorem get_finds_absent_key :
    (fmap_push 1 table16 (key32 1) (val64 2)).bind
      (fun m => (fmap_get m (key32 17)).map (fun r => (r, r.bind (load_value m)))) =
    some (some { slot := 1, pos := 0, off := 20 }, some (val64 2)) := by
  decide

set_option maxRecDepth 100000 in
/-- C3 (the code departs from it): keys 1 .. 12, 33 and 13 are pushed at
capacity 16, which occupies 13 slots; the next call `push(14, 28)` grows the
table to capacity 32, and afterwards `get(33)` returns `NULL`.  Growth can also
lose a key that was found before it: after the keys of `crowded_keys` and 95
the capacity is 32 and `get(95)` yields the bytes of 190; the call
`push(63, 126)` grows the table to capacity 64, and then `get(95)` is `NULL`. -/
theorem get_after_growth_misses_key :
    ((push_keys 1 table16 [1, 2, 3, 4, 5, 6, 7, 8, 9, 10, 11, 12, 33, 13]).map
      (fun m => m.bucket_cap) = some 16 ∧
    ((push_keys 1 table16 [1, 2, 3, 4, 5, 6, 7, 8, 9, 10, 11, 12, 33, 13]).bind
      (fun m => fmap_push 2 m (key32 14) (val64 28))).map
      (fun m => (m.bucket_cap, fmap_get m (key32 33))) = some (32, some none)) ∧
    ((push_keys 2 table16 (crowded_keys ++ [95])).map
      (fun m => (m.bucket_cap, (fmap_get m (key32 95)).map (fun r => r.bind (load_value m))))
      = some (32, some (some (val64 190))) ∧
    ((push_keys 2 table16 (crowded_keys ++ [95])).bind
      (fun m => fmap_push 3 m (key32 63) (val64 126))).map
      (fun m => (m.bucket_cap, fmap_get m (key32 95))) = some (64, some none)) := by
  refine ⟨by decide, by decide, by decide⟩

/-- C4 (the code departs from it): with key 1 stored in a fresh table of
capacity 16, `push_slot(17)` returns the value region of a new block behind
it; after the bytes of 34 are written there, `get(17)` returns `NULL`. -/
theorem pushp_then_get_misses :
    (((fmap_push 1 table16 (key32 1) (val64 2)).bind
      (fun m => fmap_pushp 1 m (key32 17) [])).bind
      (fun r => (store_value r.1 r.2 (val64 34)).map
        (fun m => (r.2, load_value m r.2, fmap_get m (key32 17))))) =
    some ({ slot := 1, pos := 1, off := 20 }, some (val64 34), some none) := by
  decide

set_option maxRecDepth 100000 in
/-- C5 (the code departs from it): after keys 1 .. 20 are pushed with value
`2 * key` into a fresh table of capacity 16, the capacity is 32 and `get(7)`
yields the bytes of 14, but `get(999)` is not `NULL`: 999 falls into slot 7 and
the lookup returns the value region of the block of key 7. -/
theorem scenario_get_999_found :
    (push_keys 2 table16 [1, 2, 3, 4, 5, 6, 7, 8, 9, 10, 11, 12, 13, 14, 15, 16, 17, 18, 19, 20]).map
      (fun m => (m.bucket_cap, (fmap_get m (key32 7)).map (fun r => r.bind (load_value m)),
        fmap_get m (key32 999))) =
    some (32, some (some (val64 14)), some (some { slot := 7, pos := 0, off := 20 })) := by
  decide

/-! ## Construction -/

/-- C6: whatever the handle held before, `fmap_init` returns 0 and leaves a
table of capacity 16 whose 16 slots are all empty, with counter 0, entry size
`header_size + key_size + value_size`, the sizes and the hash function as
given; on that table `get` returns `NULL` for every key. -/
theorem init_leaves_fresh_table (prior : fmap) (key1_size key2_size : Nat)
    (hashfunc : List Nat → Nat → Nat) :
    (fmap_init prior key1_size key2_size hashfunc).2 = 0 ∧
    (fmap_init prior key1_size key2_size hashfunc).1.bucket_cap = 16 ∧
    (fmap_init prior key1_size key2_size hashfunc).1.buckets = List.replicate 16 [] ∧
    (fmap_init prior key1_size key2_size hashfunc).1.num_buckets = 0 ∧
    (fmap_init prior key1_size key2_size hashfunc).1.mapentry_size
      = header_size + key1_size + key2_size ∧
    (fmap_init prior key1_size key2_size hashfunc).1.key1_size = key1_size ∧
    (fmap_init prior key1_size key2_size hashfunc).1.key2_size = key2_size ∧
    (fmap_init prior key1_size key2_size hashfunc).1.hashfunc = hashfunc ∧
    ∀ key : List Nat, fmap_get (fmap_init prior key1_size key2_size hashfunc).1 key = some none := by
  have hcap : to_size_t FMAP_CAP = 16 := by decide
  refine ⟨rfl, hcap, ?_, rfl, rfl, rfl, rfl, rfl, ?_⟩
  · simp [fmap_init, fmap_init_num, hcap]
  · intro key
    have hidx : ∀ x : Nat, (x % 16 % 2 ^ 32) < 16 := by
      intro x
      have h1 : x % 16 < 16 := Nat.mod_lt _ (by decide)
      have h2 : x % 16 % 2 ^ 32 ≤ x % 16 := Nat.mod_le _ _
      omega
    simp only [fmap_get, fmap_init, fmap_init_num, hcap]
    rw [if_neg (by decide)]
    rw [List.getElem?_replicate]
    rw [if_pos (hidx _)]

/-! ## Growth -/

/-- C7 (the code departs from it): the table reached from capacity 3 by pushing
the keys 0, 2, 3, 5, 8, 1 has `bucket_cap = 3`, counter 3 and an array of 3
slots; `fmap_grow` on it leaves `bucket_cap = 6` but installs an array of 12
slots, because the temporary table grew while it was being filled. -/
theorem grow_installs_longer_array :
    (push_keys 1 table3 [0, 2, 3, 5, 8, 1]).map
      (fun m => (m.bucket_cap, m.num_buckets, m.buckets.length)) = some (3, 3, 3) ∧
    ((push_keys 1 table3 [0, 2, 3, 5, 8, 1]).bind (fmap_grow 2)).map
      (fun m => (m.bucket_cap, m.buckets.length)) = some (6, 12) := by
  decide

set_option maxRecDepth 100000 in
/-- C8 (the code departs from it): after the 52 calls of `push` with the keys
of `nested_keys` on a fresh table of capacity 16, `bucket_cap` is 64 while the
array has 128 slots, and the chains of the slots `0 .. 63` hold 33 entries, not
52: the 19 keys 96 .. 114 sit in slots 96 .. 114, and `get(96)` is `NULL`.  After
the 24 further calls with the keys of `later_keys` the table has grown again,
to 128 slots, and the whole array holds 57 entries for 76 calls: the next
growth walked the slots `0 .. 63` only and the 19 entries are gone. -/
theorem growth_leaves_entries_outside_cap :
    (nested_keys.length = 52 ∧ (nested_keys ++ later_keys).length = 76) ∧
    (push_keys 3 table16 nested_keys).map
      (fun m => ((m.bucket_cap, m.buckets.length),
        ((contents m).length, m.buckets.flatten.length), fmap_get m (key32 96))) =
    some ((64, 128), (33, 52), some none) ∧
    (push_keys 3 table16 (nested_keys ++ later_keys)).map
      (fun m => ((m.bucket_cap, m.buckets.length),
        ((contents m).length, m.buckets.flatten.length), fmap_get m (key32 96))) =
    some ((128, 128), (57, 57), some none) := by
  refine ⟨by decide, by decide, by decide⟩

/-! ## Growth decision -/

theorem growth_test_iff (map : fmap) (hcap : 1 ≤ map.bucket_cap)
    (hcap23 : map.bucket_cap ≤ 2 ^ 23) :
    (map.bucket_cap ≠ 0 ∧ map.num_buckets ≠ 0 ∧
      load_factor_exceeds map.num_buckets map.bucket_cap = true) ↔
    (map.num_buckets ≠ 0 ∧ 3 * map.bucket_cap < 4 * map.num_buckets) := by
  constructor
  · rintro ⟨_, hn, hl⟩
    exact ⟨hn, (load_factor_exceeds_iff _ _ (Nat.pos_of_ne_zero hn) hcap hcap23).1 hl⟩
  · rintro ⟨hn, hl⟩
    exact ⟨by omega, hn, (load_factor_exceeds_iff _ _ (Nat.pos_of_ne_zero hn) hcap hcap23).2 hl⟩

/-- C9, amended: for a table of 1 to `2 ^ 23` slots, `fmap_push` and
`fmap_pushp` call `fmap_grow` before inserting exactly when the counter is
non-zero and `4 * num_buckets > 3 * bucket_cap`; when they do not, the call
returns, `bucket_cap` is unchanged and the bucket array differs from the old
one only in the slot of the key, whose chain has one new block at its end. -/
theorem push_grows_by_exact_rule (fuel : Nat) (map : fmap) (key val junk : List Nat)
    (hcap : 1 ≤ map.bucket_cap) (hcap23 : map.bucket_cap ≤ 2 ^ 23) :
    fmap_push (fuel + 1) map key val =
      (if map.num_buckets ≠ 0 ∧ 3 * map.bucket_cap < 4 * map.num_buckets
        then fmap_grow fuel map else some map).bind (fun m => insert_entry m key val) ∧
    fmap_pushp (fuel + 1) map key junk =
      (if map.num_buckets ≠ 0 ∧ 3 * map.bucket_cap < 4 * map.num_buckets
        then fmap_grow fuel map else some map).bind (fun m => insert_entryp m key junk) ∧
    (¬ (map.num_buckets ≠ 0 ∧ 3 * map.bucket_cap < 4 * map.num_buckets) →
      map.bucket_cap ≤ map.buckets.length →
      ∃ idx chain, idx < map.bucket_cap ∧ map.buckets[idx]? = some chain ∧
        (∃ after entry, fmap_push (fuel + 1) map key val = some after ∧
          after.bucket_cap = map.bucket_cap ∧
          after.buckets = map.buckets.set idx (chain ++ [entry]) ∧
          entry.key = key.take map.key1_size ∧ entry.value = val.take map.key2_size) ∧
        (∃ after p entry, fmap_pushp (fuel + 1) map key junk = some (after, p) ∧
          after.bucket_cap = map.bucket_cap ∧
          after.buckets = map.buckets.set idx (chain ++ [entry]) ∧
          entry.key = key.take map.key1_size ∧
          p = { slot := idx, pos := chain.length, off := header_size + map.key1_size })) := by
  have hpush : fmap_push (fuel + 1) map key val =
      (if map.num_buckets ≠ 0 ∧ 3 * map.bucket_cap < 4 * map.num_buckets
        then fmap_grow fuel map else some map).bind (fun m => insert_entry m key val) := by
    rw [fmap_push_unfold, if_congr (growth_test_iff map hcap hcap23) rfl rfl]
  have hpushp : fmap_pushp (fuel + 1) map key junk =
      (if map.num_buckets ≠ 0 ∧ 3 * map.bucket_cap < 4 * map.num_buckets
        then fmap_grow fuel map else some map).bind (fun m => insert_entryp m key junk) := by
    rw [fmap_pushp_unfold, if_congr (growth_test_iff map hcap hcap23) rfl rfl]
  refine ⟨hpush, hpushp, ?_⟩
  intro hrule hlen
  have hcap0 : map.bucket_cap ≠ 0 := by omega
  have hidx : ∀ x : Nat, x % map.bucket_cap % 2 ^ 32 < map.bucket_cap :=
    fun x => lt_of_le_of_lt (Nat.mod_le _ _) (Nat.mod_lt _ (by omega))
  refine ⟨to_size_t (c_abs (to_int32 (to_uint32 (c_abs (to_int32
      (map.hashfunc key map.key1_size)))))) % map.bucket_cap % 2 ^ 32, _, hidx _,
    List.getElem?_eq_getElem (lt_of_lt_of_le (hidx _) hlen), ?_, ?_⟩
  · have hnew := fmap_new_entry_of_slot map key val
      (to_uint32 (c_abs (to_int32 (map.hashfunc key map.key1_size)))) _ _
      (List.getElem?_eq_getElem (lt_of_lt_of_le (hidx (to_size_t (c_abs (to_int32 (to_uint32
        (c_abs (to_int32 (map.hashfunc key map.key1_size)))))))) hlen))
    have hfull : fmap_push (fuel + 1) map key val = insert_entry map key val := by
      rw [hpush, if_neg hrule, Option.some_bind]
    exact ⟨_, _, (hfull.trans (insert_entry_eq map key val hcap0)).trans hnew, rfl, rfl, rfl, rfl⟩
  · have hnew := fmap_new_entryp_of_slot map key junk
      (to_uint32 (c_abs (to_int32 (map.hashfunc key map.key1_size)))) _ _
      (List.getElem?_eq_getElem (lt_of_lt_of_le (hidx (to_size_t (c_abs (to_int32 (to_uint32
        (c_abs (to_int32 (map.hashfunc key map.key1_size)))))))) hlen))
    have hfull : fmap_pushp (fuel + 1) map key junk = insert_entryp map key junk := by
      rw [hpushp, if_neg hrule, Option.some_bind]
    exact ⟨_, _, _, (hfull.trans (insert_entryp_eq map key junk hcap0)).trans hnew,
      rfl, rfl, rfl, rfl⟩

/-- The rule of C9 applied to the fresh table of capacity 16: no growth, and
the call returns a table of the same capacity. -/
theorem push_grows_by_exact_rule_witness :
    (1 ≤ table16.bucket_cap ∧ table16.bucket_cap ≤ 2 ^ 23) ∧
    fmap_push 2 table16 (key32 1) (val64 2) =
      (if table16.num_buckets ≠ 0 ∧ 3 * table16.bucket_cap < 4 * table16.num_buckets
        then fmap_grow 1 table16 else some table16).bind
          (fun m => insert_entry m (key32 1) (val64 2)) ∧
    ∃ after, fmap_push 2 table16 (key32 1) (val64 2) = some after ∧ after.bucket_cap = 16 :=
  ⟨⟨by decide, by decide⟩,
    (push_grows_by_exact_rule 1 table16 (key32 1) (val64 2) [] (by decide) (by decide)).1,
    by
      obtain ⟨_, _, _, _, ⟨after, _, h1, h2, _⟩, _⟩ :=
        (push_grows_by_exact_rule 1 table16 (key32 1) (val64 2) [] (by decide) (by decide)).2.2
          (by decide) (by decide)
      exact ⟨after, h1, h2⟩⟩

/-- C9 as stated fails: the table `table_large`, reached from
`fmap_init_num(&map, 4, 8, hash_u32, 8388609)` by pushing the keys
`0 .. 6291456`, has `2 ^ 23 + 1` slots and counter 6291457, so
`4 * num_buckets > 3 * bucket_cap`; yet `fmap_push` and `fmap_pushp` insert
without growing and leave `bucket_cap` at 8388609, because the quotient rounds
to `0.75` in single precision.  Growing first would double the capacity. -/
theorem exact_ratio_rule_fails_on_large_table :
    push_keys 1 (fmap_init_num blank 4 8 hash_u32 8388609).1 (List.range 6291457)
      = some table_large ∧
    (table_large.num_buckets ≠ 0 ∧ 3 * table_large.bucket_cap < 4 * table_large.num_buckets) ∧
    fmap_push 2 table_large (key32 8388609) (val64 0)
      = insert_entry table_large (key32 8388609) (val64 0) ∧
    (fmap_push 2 table_large (key32 8388609) (val64 0)).map (fun m => m.bucket_cap)
      = some 8388609 ∧
    (fmap_pushp 2 table_large (key32 8388609) []).map (fun r => r.1.bucket_cap)
      = some 8388609 ∧
    ((fmap_grow 1 table_large).bind (fun m => insert_entry m (key32 8388609) (val64 0))).map
      (fun m => m.bucket_cap) ≠ some 8388609 := by
  have hload : load_factor_exceeds table_large.num_buckets table_large.bucket_cap = false := by
    show load_factor_exceeds 6291457 8388609 = false
    decide
  have hidx : to_size_t (c_abs (to_int32 (to_uint32 (c_abs (to_int32
      (table_large.hashfunc (key32 8388609) table_large.key1_size))))))
      % table_large.bucket_cap % 2 ^ 32 = 0 := by
    show to_size_t (c_abs (to_int32 (to_uint32 (c_abs (to_int32
      (hash_u32 (key32 8388609) 4)))))) % 8388609 % 2 ^ 32 = 0
    decide
  have hslot : table_large.buckets[0]?
      = some [(⟨0, key32 0, val64 (2 * 0), AllocFn.malloc⟩ : fmapentry)] := by
    show (occupied_slots (6291456 + 1) 0 ++ List.replicate (8388609 - 6291457) [])[0]? = _
    rw [occupied_slots, List.cons_append, List.getElem?_cons_zero]
  have hcap0 : table_large.bucket_cap ≠ 0 := by
    show (8388609 : Nat) ≠ 0
    decide
  have hpush : fmap_push 2 table_large (key32 8388609) (val64 0)
      = insert_entry table_large (key32 8388609) (val64 0) := by
    rw [show (2 : Nat) = 1 + 1 from rfl, fmap_push_unfold, if_neg (by rw [hload]; simp),
      Option.some_bind]
  have hpushp : fmap_pushp 2 table_large (key32 8388609) []
      = insert_entryp table_large (key32 8388609) [] := by
    rw [show (2 : Nat) = 1 + 1 from rfl, fmap_pushp_unfold, if_neg (by rw [hload]; simp),
      Option.some_bind]
  refine ⟨filled_table_reached 6291457 (le_refl _), ⟨by decide, by decide⟩, hpush, ?_, ?_, ?_⟩
  · rw [hpush, insert_entry, if_neg hcap0]
    simp only [hidx]
    rw [fmap_new_entry_of_slot _ _ _ _ _ _ hslot]
    rfl
  · rw [hpushp, insert_entryp, if_neg hcap0]
    simp only [hidx]
    rw [fmap_new_entryp_of_slot _ _ _ _ _ _ hslot]
    rfl
  · intro h
    cases hg : fmap_grow 1 table_large with
    | none => rw [hg] at h; cases h
    | some grown =>
      rw [hg, Option.some_bind] at h
      cases hi : insert_entry grown (key32 8388609) (val64 0) with
      | none => rw [hi] at h; cases h
      | some after =>
        rw [hi] at h
        have h1 := insert_entry_bucket_cap _ _ _ _ hi
        have h2 := fmap_grow_with_bucket_cap _ _ _ hg
        have h3 : after.bucket_cap = 8388609 := by
          simpa using h
        have h4 : table_large.bucket_cap = 8388609 := rfl
        omega

/-! ## Allocation functions -/

/-- C10 (the code departs from it): with custom functions installed right
after `fmap_init`, `fmap_free` hands the bucket array, which came from
`calloc`, to the custom release function; and after 14 pushes, the 14th of
which grows the table, the 13 re-inserted blocks came from `malloc`, not from
the custom allocator, and are handed to the custom release function too. -/
theorem custom_release_receives_platform_blocks :
    fmap_free (fmap_set_allocation_funcs table16 (AllocFn.custom 0) (FreeFn.custom 0)) =
      some [(AllocFn.calloc, FreeFn.custom 0)] ∧
    ((push_keys 2 (fmap_set_allocation_funcs table16 (AllocFn.custom 0) (FreeFn.custom 0))
      [1, 2, 3, 4, 5, 6, 7, 8, 9, 10, 11, 12, 13, 14]).bind fmap_free) =
      some (List.replicate 13 (AllocFn.malloc, FreeFn.custom 0) ++
        [(AllocFn.custom 0, FreeFn.custom 0), (AllocFn.calloc, FreeFn.custom 0)]) := by
  decide

/-! ## Shape of the lookup -/

theorem fmap_get_eq (map : fmap) (key : List Nat) (hcap : map.bucket_cap ≠ 0) :
    fmap_get map key =
      match map.buckets[lookup_index map key]? with
      | none => none
      | some [] => some none
      | some (entry :: rest) =>
        some (fmap_get_loop map key (lookup_index map key) 0 entry rest) := by
  unfold fmap_get lookup_index
  rw [if_neg hcap]
  rfl

theorem fmap_get_of_single (map : fmap) (key : List Nat) (entry : fmapentry)
    (hcap : map.bucket_cap ≠ 0) (h : map.buckets[lookup_index map key]? = some [entry]) :
    fmap_get map key = some (some
      { slot := lookup_index map key, pos := 0, off := header_size + map.key1_size }) := by
  rw [fmap_get_eq map key hcap, h]
  rfl

theorem fmap_get_loop_no_match (map : fmap) (key : List Nat) (idx : Nat) :
    ∀ (rest : List fmapentry) (pos : Nat) (entry : fmapentry), rest ≠ [] →
      (∀ x ∈ (entry :: rest).dropLast,
        key.take map.key1_size ≠ x.key.take map.key1_size) →
      fmap_get_loop map key idx pos entry rest = none := by
  intro rest
  induction rest with
  | nil => intro pos entry h; exact absurd rfl h
  | cons nxt rest ih =>
    intro pos entry _ hno
    have hentry : key.take map.key1_size ≠ entry.key.take map.key1_size :=
      hno entry (by simp [List.dropLast])
    unfold fmap_get_loop
    rw [if_neg (by simpa [fmap_get_key_from_fmapentry] using hentry)]
    cases rest with
    | nil => rfl
    | cons r rs =>
      exact ih (pos + 1) nxt (by simp) (fun x hx => hno x (by
        rw [List.dropLast_cons₂]
        exact List.mem_cons_of_mem _ hx))

theorem load_value_of_slot (map : fmap) (idx pos : Nat) (chain : List fmapentry)
    (entry : fmapentry) (h : map.buckets[idx]? = some chain) (hp : chain[pos]? = some entry) :
    load_value map { slot := idx, pos := pos, off := header_size + map.key1_size }
      = some entry.value := by
  unfold load_value
  rw [if_pos rfl]
  simp only [h, Option.some_bind, hp, Option.map_some']

theorem chains_single_spec (map : fmap) (h : chains_single map = true) (i : Nat)
    (chain : List fmapentry) (hi : map.buckets[i]? = some chain) : chain.length ≤ 1 := by
  unfold chains_single at h
  rw [List.all_eq_true] at h
  have hmem : chain ∈ map.buckets := List.getElem?_mem hi
  simpa using h chain hmem

theorem placement_holds_spec (map : fmap) (h : placement_holds map = true) (i : Nat)
    (chain : List fmapentry) (entry : fmapentry) (hi : map.buckets[i]? = some chain)
    (he : entry ∈ chain) : lookup_index map entry.key = i := by
  unfold placement_holds at h
  rw [List.all_eq_true] at h
  have hlt : i < map.buckets.length := by
    by_contra hcon
    rw [List.getElem?_eq_none (by omega)] at hi
    cases hi
  have h1 := h i (List.mem_range.2 hlt)
  rw [hi, Option.getD_some, List.all_eq_true] at h1
  simpa using h1 entry he

/-! ## Shape of hash and index -/

theorem abs_hash_eq (H : Nat) (hh : H % 2 ^ 32 ≠ 2 ^ 31) :
    to_uint32 (c_abs (to_int32 H))
      = if H % 2 ^ 32 < 2 ^ 31 then H % 2 ^ 32 else 2 ^ 32 - H % 2 ^ 32 := by
  have hlt : H % 2 ^ 32 < 2 ^ 32 := Nat.mod_lt _ (by positivity)
  unfold to_int32
  by_cases h : H % 2 ^ 32 < 2 ^ 31
  · rw [if_pos h, if_pos h]
    unfold c_abs to_uint32
    rw [if_neg (by omega), if_neg (by omega)]
    omega
  · rw [if_neg h, if_neg h]
    unfold c_abs to_uint32
    rw [if_neg (by omega), if_pos (by omega)]
    omega

theorem abs_index_eq (a cap : Nat) (ha : a < 2 ^ 31) :
    to_size_t (c_abs (to_int32 a)) % cap % 2 ^ 32 = a % cap := by
  have h1 : a % 2 ^ 32 = a := Nat.mod_eq_of_lt (by omega)
  have h2 : to_int32 a = (a : Int) := by
    unfold to_int32
    rw [h1, if_pos ha]
  have h3 : to_size_t (c_abs (to_int32 a)) = a := by
    rw [h2]
    unfold c_abs to_size_t
    rw [if_neg (by omega), if_neg (by omega)]
    omega
  rw [h3]
  exact Nat.mod_eq_of_lt (lt_of_le_of_lt (Nat.mod_le _ _) (by omega))

theorem abs_hash_lt (H : Nat) :
    (if H % 2 ^ 32 < 2 ^ 31 then H % 2 ^ 32 else 2 ^ 32 - H % 2 ^ 32) ≤ 2 ^ 31 := by
  split_ifs <;> omega

theorem fmap_grow_with_fields (push : fmap → List Nat → List Nat → Option fmap)
    (map grown : fmap) (h : fmap_grow_with push map = some grown) :
    grown.hashfunc = map.hashfunc ∧ grown.key1_size = map.key1_size ∧
    grown.key2_size = map.key2_size ∧ grown.num_buckets = map.num_buckets ∧
    grown.allocfunc = map.allocfunc ∧ grown.bucket_cap = map.bucket_cap * 2 := by
  unfold fmap_grow_with at h
  simp only [] at h
  split_ifs at h
  split at h
  · cases h
  · cases h
    exact ⟨rfl, rfl, rfl, rfl, rfl, rfl⟩

/-! ## Insertion without growth -/

theorem lookup_index_lt (map : fmap) (key : List Nat) (hcap : map.bucket_cap ≠ 0) :
    lookup_index map key < map.bucket_cap := by
  unfold lookup_index
  exact lt_of_le_of_lt (Nat.mod_le _ _) (Nat.mod_lt _ (Nat.pos_of_ne_zero hcap))

theorem insert_entry_of_slot (map : fmap) (key val : List Nat) (chain : List fmapentry)
    (hcap : map.bucket_cap ≠ 0) (h : map.buckets[lookup_index map key]? = some chain) :
    insert_entry map key val =
      some { map with
        buckets := map.buckets.set (lookup_index map key)
          (chain ++ [fmap_initialize_fmapentry map (alloc_entry map [])
            (to_uint32 (c_abs (to_int32 (map.hashfunc key map.key1_size)))) key val])
        num_buckets := if chain = [] then map.num_buckets + 1 else map.num_buckets } := by
  rw [insert_entry_eq map key val hcap]
  exact fmap_new_entry_of_slot map key val _ _ chain h

/-- C11: when `push(k, v)` does not grow the table (`bucket_cap` is not zero,
the array has at least `bucket_cap` slots, and the load test fails), the call
returns; the chain of the slot computed for `k` is the old chain followed by
one new block with the cached hash, the `key_size` bytes of `k` and the
`value_size` bytes of `v`, so no block of the old chain is overwritten or
removed; every other slot, the array length and `bucket_cap` are unchanged;
and the counter grows by 1 if the slot was empty and is unchanged otherwise.
The slot is below `bucket_cap`, and for a hash other than `2 ^ 31` it is
`|hash| mod bucket_cap` and the cached hash is `|hash|`. -/
theorem push_without_growth_appends (fuel : Nat) (map : fmap) (key val : List Nat)
    (hcap : map.bucket_cap ≠ 0) (hlen : map.bucket_cap ≤ map.buckets.length)
    (hno : ¬ (map.num_buckets ≠ 0 ∧
      load_factor_exceeds map.num_buckets map.bucket_cap = true)) :
    lookup_index map key < map.bucket_cap ∧
    (map.hashfunc key map.key1_size % 2 ^ 32 ≠ 2 ^ 31 →
      lookup_index map key
        = abs_signed (map.hashfunc key map.key1_size % 2 ^ 32) % map.bucket_cap ∧
      to_uint32 (c_abs (to_int32 (map.hashfunc key map.key1_size)))
        = abs_signed (map.hashfunc key map.key1_size % 2 ^ 32)) ∧
    ∃ (chain : List fmapentry) (entry : fmapentry) (after : fmap),
      map.buckets[lookup_index map key]? = some chain ∧
      fmap_push (fuel + 1) map key val = some after ∧
      after.buckets[lookup_index map key]? = some (chain ++ [entry]) ∧
      entry.hash = to_uint32 (c_abs (to_int32 (map.hashfunc key map.key1_size))) ∧
      entry.key = key.take map.key1_size ∧ entry.value = val.take map.key2_size ∧
      (∀ j : Nat, j ≠ lookup_index map key → after.buckets[j]? = map.buckets[j]?) ∧
      after.buckets.length = map.buckets.length ∧
      after.bucket_cap = map.bucket_cap ∧
      after.num_buckets = (if chain = [] then map.num_buckets + 1 else map.num_buckets) := by
  have hidx := lookup_index_lt map key hcap
  have hlt : lookup_index map key < map.buckets.length := lt_of_lt_of_le hidx hlen
  refine ⟨hidx, ?_, ?_⟩
  · intro hh
    have ha := abs_hash_eq (map.hashfunc key map.key1_size) hh
    have halt : abs_signed (map.hashfunc key map.key1_size % 2 ^ 32) < 2 ^ 31 := by
      unfold abs_signed
      split_ifs <;> omega
    refine ⟨?_, ha⟩
    unfold lookup_index
    rw [ha]
    exact abs_index_eq _ _ halt
  · have hslot : map.buckets[lookup_index map key]?
        = some (map.buckets[lookup_index map key]) := List.getElem?_eq_getElem hlt
    have hpush : fmap_push (fuel + 1) map key val = insert_entry map key val := by
      rw [fmap_push_unfold, if_neg (fun h => hno ⟨h.2.1, h.2.2⟩), Option.some_bind]
    refine ⟨_, fmap_initialize_fmapentry map (alloc_entry map [])
        (to_uint32 (c_abs (to_int32 (map.hashfunc key map.key1_size)))) key val, _, hslot,
      hpush.trans (insert_entry_of_slot map key val _ hcap hslot),
      ?_, rfl, rfl, rfl, ?_, ?_, rfl, rfl⟩
    · exact List.getElem?_set_self hlt
    · intro j hj
      exact List.getElem?_set_ne (Ne.symm hj)
    · exact List.length_set _ _ _

/-- C11 on the fresh table of capacity 16 and `push(1, 2)`: no growth, the call
returns, and `bucket_cap` stays 16. -/
theorem push_without_growth_appends_witness :
    (table16.bucket_cap ≠ 0 ∧ table16.bucket_cap ≤ table16.buckets.length ∧
      ¬ (table16.num_buckets ≠ 0 ∧
        load_factor_exceeds table16.num_buckets table16.bucket_cap = true)) ∧
    lookup_index table16 (key32 1) < table16.bucket_cap :=
  ⟨⟨by decide, by decide, by decide⟩,
    (push_without_growth_appends 0 table16 (key32 1) (val64 2) (by decide) (by decide)
      (by decide)).1⟩

/-! ## Relative error of the conversion to single precision -/

theorem f32_of_nat_bounds (x : Nat) (hx : 0 < x) :
    (2 ^ 23 - 1) * x ≤ 2 ^ 23 * f32_of_nat x ∧ 2 ^ 23 * f32_of_nat x ≤ (2 ^ 23 + 1) * x := by
  obtain ⟨h1, h2⟩ := f32_exponent_spec x 1 hx (by decide) (by rw [ilog2_one]; omega)
  have hge := round_nearest_even_ge (x * 2 ^ 150) (1 * 2 ^ f32_exponent x 1)
  have hle := round_nearest_even_le (x * 2 ^ 150) (1 * 2 ^ f32_exponent x 1)
  rcases Nat.lt_or_ge 150 (f32_exponent x 1) with hbig | hsmall
  · -- one unit of the significand is `s = 2 ^ (e - 150)`
    have hs : 2 ^ f32_exponent x 1 = 2 ^ (f32_exponent x 1 - 150) * 2 ^ 150 := by
      have hsum : f32_exponent x 1 - 150 + 150 = f32_exponent x 1 := by omega
      rw [← pow_add, hsum]
    have hP : 0 < 2 ^ 150 := by positivity
    have hspos : 0 < 2 ^ (f32_exponent x 1 - 150) := by positivity
    have hdiv : x * 2 ^ 150 / (1 * 2 ^ f32_exponent x 1)
        = x / 2 ^ (f32_exponent x 1 - 150) := by
      rw [one_mul, hs]
      exact Nat.mul_div_mul_right _ _ hP
    have hval : f32_of_nat x = round_nearest_even (x * 2 ^ 150) (1 * 2 ^ f32_exponent x 1)
        * 2 ^ (f32_exponent x 1 - 150) := by
      unfold f32_of_nat f32_round
      simp only []
      rw [hs, ← mul_assoc]
      exact Nat.mul_div_cancel _ hP
    have hsx : 2 ^ 23 * 2 ^ (f32_exponent x 1 - 150) ≤ x := by
      have h3 : 1 * 2 ^ (f32_exponent x 1 + 23)
          = (2 ^ 23 * 2 ^ (f32_exponent x 1 - 150)) * 2 ^ 150 := by
        have hsum : 23 + (f32_exponent x 1 - 150 + 150) = f32_exponent x 1 + 23 := by omega
        rw [one_mul, mul_assoc, ← pow_add, ← pow_add, hsum]
      rw [h3] at h1
      exact Nat.le_of_mul_le_mul_right h1 hP
    rw [hdiv] at hge hle
    rw [hval]
    generalize 2 ^ (f32_exponent x 1 - 150) = s at hspos hsx hge hle ⊢
    generalize round_nearest_even (x * 2 ^ 150) (1 * 2 ^ f32_exponent x 1) = m at hge hle ⊢
    have hdm := Nat.div_add_mod x s
    have hr : x % s < s := Nat.mod_lt _ hspos
    have hlow : x / s * s ≤ m * s := Nat.mul_le_mul_right _ hge
    have hup : m * s ≤ (x / s + 1) * s := Nat.mul_le_mul_right _ hle
    have hcomm : s * (x / s) = x / s * s := Nat.mul_comm _ _
    have hexp : (x / s + 1) * s = x / s * s + s := by ring
    rw [hexp] at hup
    generalize x / s * s = p at *
    generalize m * s = v at *
    generalize x % s = r at *
    constructor <;> omega
  · have hex : f32_of_nat x = x := by
      have hsplit : x * 2 ^ 150
          = x * 2 ^ (150 - f32_exponent x 1) * (1 * 2 ^ f32_exponent x 1) := by
        have hsum : 150 - f32_exponent x 1 + f32_exponent x 1 = 150 := by omega
        rw [one_mul, mul_assoc, ← pow_add, hsum]
      have hpos : 0 < 1 * 2 ^ f32_exponent x 1 := by positivity
      have hmod : x * 2 ^ 150 % (1 * 2 ^ f32_exponent x 1) = 0 := by
        rw [hsplit]
        exact Nat.mul_mod_left _ _
      have hdiv : x * 2 ^ 150 / (1 * 2 ^ f32_exponent x 1)
          = x * 2 ^ (150 - f32_exponent x 1) := by
        rw [hsplit]
        exact Nat.mul_div_left _ hpos
      unfold f32_of_nat f32_round
      simp only []
      rw [round_nearest_even_exact _ _ hpos hmod, hdiv, mul_assoc, ← pow_add]
      have : 150 - f32_exponent x 1 + f32_exponent x 1 = 150 := by omega
      rw [this]
      exact Nat.mul_div_left _ (by positivity)
    rw [hex]
    constructor <;> omega

theorem load_factor_exceeds_bound (n c : Nat) (hn : 0 < n) (hc : 0 < c) (hc64 : c < 2 ^ 64)
    (h : load_factor_exceeds n c = true) : c < 2 * n := by
  obtain ⟨hn1, hn2⟩ := f32_of_nat_bounds n hn
  obtain ⟨hc1, hc2⟩ := f32_of_nat_bounds c hc
  have hfn : 0 < f32_of_nat n := by
    by_contra hcon
    have : f32_of_nat n = 0 := by omega
    rw [this] at hn1
    omega
  have hfc : 0 < f32_of_nat c := by
    by_contra hcon
    have : f32_of_nat c = 0 := by omega
    rw [this] at hc1
    omega
  have hlog : ilog2 (f32_of_nat c) ≤ 126 + ilog2 (f32_of_nat n) := by
    have h65 : f32_of_nat c ≤ 2 ^ 65 := by
      have : (2 : Nat) ^ 65 = 2 * 2 ^ 64 := by norm_num
      omega
    have := ilog2_le_of_le_pow (f32_of_nat c) 65 hfc h65
    omega
  by_contra hcon
  have hle : 4 * f32_of_nat n ≤ 3 * f32_of_nat c := by omega
  have hnot := f32_quotient_not_exceeds (f32_of_nat n) (f32_of_nat c) hfn hfc hlog hle
  unfold load_factor_exceeds at h
  simp only [decide_eq_true_eq] at h
  omega

/-! ## Bounded depth of growth -/

theorem flatten_length_set_append {α : Type} (e : α) :
    ∀ (l : List (List α)) (i : Nat) (chain : List α), l[i]? = some chain →
      (l.set i (chain ++ [e])).flatten.length = l.flatten.length + 1 := by
  intro l
  induction l with
  | nil => intro i chain h; simp at h
  | cons x xs ih =>
    intro i chain h
    cases i with
    | zero =>
      simp only [List.getElem?_cons_zero, Option.some.injEq] at h
      subst h
      simp only [List.set_cons_zero, List.flatten_cons, List.length_append,
        List.length_singleton]
      omega
    | succ j =>
      simp only [List.getElem?_cons_succ] at h
      simp only [List.set_cons_succ, List.flatten_cons, List.length_append]
      rw [ih j chain h]
      omega

theorem take_flatten_length_le {α : Type} (l : List (List α)) (k : Nat) :
    (l.take k).flatten.length ≤ l.flatten.length := by
  conv_rhs => rw [← List.take_append_drop k l]
  rw [List.flatten_append, List.length_append]
  omega

theorem replicate_nil_flatten {α : Type} (n : Nat) :
    (List.replicate n ([] : List α)).flatten = [] := by
  induction n with
  | zero => rfl
  | succ n ih => simp [List.replicate_succ, ih]

theorem to_size_t_to_int32 (x : Nat) (hx : x < 2 ^ 31) : to_size_t (to_int32 x) = x := by
  have h1 : x % 2 ^ 32 = x := Nat.mod_eq_of_lt (by omega)
  unfold to_int32 to_size_t
  rw [h1, if_pos hx]
  omega

theorem insert_entry_in_range (map : fmap) (key val : List Nat) (a : Nat)
    (h : in_range map a) :
    ∃ after, insert_entry map key val = some after ∧ in_range after (a + 1) ∧
      after.bucket_cap = map.bucket_cap := by
  obtain ⟨hcap, hlen, h64, hnum, htot⟩ := h
  have hlt : lookup_index map key < map.buckets.length :=
    lt_of_lt_of_le (lookup_index_lt map key hcap) hlen
  have hslot : map.buckets[lookup_index map key]?
      = some (map.buckets[lookup_index map key]) := List.getElem?_eq_getElem hlt
  refine ⟨_, insert_entry_of_slot map key val _ hcap hslot, ⟨hcap, ?_, h64, ?_, ?_⟩, rfl⟩
  · show map.bucket_cap ≤ (map.buckets.set _ _).length
    rw [List.length_set]
    exact hlen
  · show (if map.buckets[lookup_index map key] = [] then map.num_buckets + 1
      else map.num_buckets) ≤ a + 1
    split_ifs <;> omega
  · show (map.buckets.set _ _).flatten.length ≤ a + 1
    rw [flatten_length_set_append _ _ _ _ hslot]
    unfold total_entries at htot
    omega

theorem fold_push_returns (push : fmap → List Nat → List Nat → Option fmap) (c0 N : Nat)
    (hpush : ∀ (t : fmap) (key val : List Nat) (a : Nat), in_range t a → a < N →
      c0 ≤ t.bucket_cap →
      ∃ t', push t key val = some t' ∧ in_range t' (a + 1) ∧ t.bucket_cap ≤ t'.bucket_cap) :
    ∀ (entries : List fmapentry) (t : fmap) (a : Nat), in_range t a →
      a + entries.length ≤ N → c0 ≤ t.bucket_cap →
      ∃ t', entries.foldl (fun acc entry => acc.bind (fun t => push t entry.key entry.value))
          (some t) = some t' ∧
        in_range t' (a + entries.length) ∧ c0 ≤ t'.bucket_cap := by
  intro entries
  induction entries with
  | nil => intro t a h _ hc; exact ⟨t, rfl, h, hc⟩
  | cons e es ih =>
    intro t a h hN hc
    rw [List.length_cons] at hN
    obtain ⟨t1, h1, hr1, hc1⟩ := hpush t e.key e.value a h (by omega) hc
    obtain ⟨t2, h2, hr2, hc2⟩ := ih t1 (a + 1) hr1 (by omega) (le_trans hc hc1)
    refine ⟨t2, ?_, ?_, hc2⟩
    · rw [List.foldl_cons, Option.some_bind, h1]
      exact h2
    · rw [List.length_cons]
      have : a + (es.length + 1) = a + 1 + es.length := by omega
      rw [this]
      exact hr2

theorem fmap_grow_with_of_fold (push : fmap → List Nat → List Nat → Option fmap)
    (map filled : fmap) (hlen : map.bucket_cap ≤ map.buckets.length)
    (hfold : (map.buckets.take map.bucket_cap).flatten.foldl
      (fun acc entry => acc.bind (fun t => push t entry.key entry.value))
      (some (fmap_init_num map map.key1_size map.key2_size map.hashfunc
        (to_int32 (map.bucket_cap * 2))).1) = some filled) :
    fmap_grow_with push map = some { map with
      buckets := filled.buckets
      buckets_by := filled.buckets_by
      bucket_cap := map.bucket_cap * 2 } := by
  unfold fmap_grow_with
  simp only []
  rw [if_neg (by omega), hfold]

theorem push_returns_in_range (N : Nat) (hN : N ≤ 2 ^ 29) :
    ∀ (k fuel : Nat), k + 1 ≤ fuel → ∀ (t : fmap) (key val : List Nat) (a : Nat),
      in_range t a → a < N → 2 * N ≤ t.bucket_cap * 2 ^ k →
      ∃ t', fmap_push fuel t key val = some t' ∧ in_range t' (a + 1) ∧
        t.bucket_cap ≤ t'.bucket_cap := by
  intro k
  induction k with
  | zero =>
    intro fuel hfuel t key val a h ha hk
    obtain ⟨f, rfl⟩ : ∃ f, fuel = f + 1 := ⟨fuel - 1, by omega⟩
    have hnot : ¬ (t.bucket_cap ≠ 0 ∧ t.num_buckets ≠ 0 ∧
        load_factor_exceeds t.num_buckets t.bucket_cap = true) := by
      rintro ⟨h0, hn0, hl⟩
      have := load_factor_exceeds_bound _ _ (Nat.pos_of_ne_zero hn0) (Nat.pos_of_ne_zero h0)
        h.2.2.1 hl
      have := h.2.2.2.1
      omega
    rw [fmap_push_unfold, if_neg hnot, Option.some_bind]
    obtain ⟨after, h1, h2, h3⟩ := insert_entry_in_range t key val a h
    exact ⟨after, h1, h2, le_of_eq h3.symm⟩
  | succ k ih =>
    intro fuel hfuel t key val a h ha hk
    obtain ⟨f, rfl⟩ : ∃ f, fuel = f + 1 := ⟨fuel - 1, by omega⟩
    rw [fmap_push_unfold]
    by_cases htrig : t.bucket_cap ≠ 0 ∧ t.num_buckets ≠ 0 ∧
        load_factor_exceeds t.num_buckets t.bucket_cap = true
    · rw [if_pos htrig]
      obtain ⟨hcap, hlen, h64, hnum, htot⟩ := h
      have hbound := load_factor_exceeds_bound _ _ (Nat.pos_of_ne_zero htrig.2.1)
        (Nat.pos_of_ne_zero hcap) h64 htrig.2.2
      have hnew : t.bucket_cap * 2 < 2 ^ 31 := by
        have : (2 : Nat) ^ 31 = 4 * 2 ^ 29 := by norm_num
        omega
      -- the temporary table
      have htmp : in_range (fmap_init_num t t.key1_size t.key2_size t.hashfunc
          (to_int32 (t.bucket_cap * 2))).1 0 := by
        unfold in_range total_entries fmap_init_num
        simp only [to_size_t_to_int32 _ hnew, List.length_replicate, replicate_nil_flatten,
          List.length_nil]
        refine ⟨by omega, le_refl _, ?_, le_refl _, le_refl _⟩
        have : (2 : Nat) ^ 31 < 2 ^ 64 := by norm_num
        omega
      have htmpcap : (fmap_init_num t t.key1_size t.key2_size t.hashfunc
          (to_int32 (t.bucket_cap * 2))).1.bucket_cap = t.bucket_cap * 2 := by
        unfold fmap_init_num
        exact to_size_t_to_int32 _ hnew
      have hwalk : (t.buckets.take t.bucket_cap).flatten.length ≤ a :=
        le_trans (take_flatten_length_le _ _) htot
      obtain ⟨filled, hfold, hfr, hfc⟩ := fold_push_returns (fmap_push f) (t.bucket_cap * 2) N
        (fun t' key' val' a' hr' ha' hc' => ih f (by omega) t' key' val' a' hr' ha' (by
          have h1 : t.bucket_cap * 2 * 2 ^ k ≤ t'.bucket_cap * 2 ^ k :=
            Nat.mul_le_mul_right _ hc'
          have h2 : t.bucket_cap * 2 ^ (k + 1) = t.bucket_cap * 2 * 2 ^ k := by
            rw [pow_succ]; ring
          omega))
        (t.buckets.take t.bucket_cap).flatten _ 0 htmp (by omega) (le_of_eq htmpcap.symm)
      have hgrow : fmap_grow f t = some { t with
          buckets := filled.buckets
          buckets_by := filled.buckets_by
          bucket_cap := t.bucket_cap * 2 } :=
        fmap_grow_with_of_fold (fmap_push f) t filled hlen hfold
      rw [hgrow, Option.some_bind]
      have hgr : in_range { t with
          buckets := filled.buckets
          buckets_by := filled.buckets_by
          bucket_cap := t.bucket_cap * 2 } a := by
        obtain ⟨_, hflen, _, _, hftot⟩ := hfr
        refine ⟨by show t.bucket_cap * 2 ≠ 0; omega, ?_, ?_, hnum, ?_⟩
        · show t.bucket_cap * 2 ≤ filled.buckets.length
          omega
        · show t.bucket_cap * 2 < 2 ^ 64
          have : (2 : Nat) ^ 31 < 2 ^ 64 := by norm_num
          omega
        · show filled.buckets.flatten.length ≤ a
          unfold total_entries at hftot
          omega
      obtain ⟨after, h1, h2, h3⟩ := insert_entry_in_range _ key val a hgr
      refine ⟨after, h1, h2, ?_⟩
      rw [h3]
      show t.bucket_cap ≤ t.bucket_cap * 2
      omega
    · rw [if_neg htrig, Option.some_bind]
      obtain ⟨after, h1, h2, h3⟩ := insert_entry_in_range t key val a h
      exact ⟨after, h1, h2, le_of_eq h3.symm⟩

/-! ## Shape of the two insertion paths -/

theorem store_after_new_entryp (map : fmap) (key v junk : List Nat) (hash idx : Nat) :
    (fmap_new_entryp map key hash idx junk).bind (fun r => store_value r.1 r.2 v)
      = fmap_new_entry map key hash v idx := by
  cases hslot : map.buckets[idx]? with
  | none =>
    unfold fmap_new_entryp fmap_new_entry
    rw [hslot]
    rfl
  | some chain =>
    have hlt : idx < map.buckets.length := by
      by_contra hcon
      rw [List.getElem?_eq_none (by omega)] at hslot
      cases hslot
    rw [fmap_new_entryp_of_slot map key junk hash idx chain hslot,
      fmap_new_entry_of_slot map key v hash idx chain hslot, Option.some_bind]
    unfold store_value
    simp only []
    rw [if_pos trivial, List.getElem?_set_self hlt, Option.some_bind,
      List.getElem?_append_right (le_refl _), Nat.sub_self, List.getElem?_cons_zero,
      Option.map_some', List.set_set, List.set_append_right _ _ (le_refl _), Nat.sub_self,
      List.set_cons_zero]
    rfl

theorem pushp_bind_store (fuel : Nat) (map : fmap) (key v junk : List Nat) :
    (fmap_pushp fuel map key junk).bind (fun r => store_value r.1 r.2 v)
      = fmap_push fuel map key v := by
  cases fuel with
  | zero => rfl
  | succ fuel =>
    rw [fmap_pushp_unfold, fmap_push_unfold, Option.bind_assoc]
    congr 1
    funext m
    unfold insert_entryp insert_entry
    by_cases hcap : m.bucket_cap = 0
    · rw [if_pos hcap, if_pos hcap]
      rfl
    · rw [if_neg hcap, if_neg hcap]
      exact store_after_new_entryp m key v junk _ _

theorem push_returns (fuel : Nat) (map : fmap) (key val : List Nat) (hfuel : 32 ≤ fuel)
    (hcap : 1 ≤ map.bucket_cap) (hlen : map.bucket_cap ≤ map.buckets.length)
    (h64 : map.bucket_cap < 2 ^ 64) (hnum : map.num_buckets < 2 ^ 29)
    (htot : total_entries map < 2 ^ 29) :
    ∃ after, fmap_push fuel map key val = some after := by
  have hr : in_range map (max map.num_buckets (total_entries map)) :=
    ⟨by omega, hlen, h64, le_max_left _ _, le_max_right _ _⟩
  have hk : 2 * 2 ^ 29 ≤ map.bucket_cap * 2 ^ 31 := by
    have h1 : 1 * 2 ^ 31 ≤ map.bucket_cap * 2 ^ 31 := Nat.mul_le_mul_right _ hcap
    have h2 : (2 : Nat) * 2 ^ 29 ≤ 1 * 2 ^ 31 := by norm_num
    omega
  obtain ⟨after, h, _, _⟩ := push_returns_in_range (2 ^ 29) (le_refl _) 31 fuel (by omega) map
    key val _ hr (max_lt hnum htot) hk
  exact ⟨after, h⟩

theorem pushp_returns (fuel : Nat) (map : fmap) (key junk : List Nat) (hfuel : 32 ≤ fuel)
    (hcap : 1 ≤ map.bucket_cap) (hlen : map.bucket_cap ≤ map.buckets.length)
    (h64 : map.bucket_cap < 2 ^ 64) (hnum : map.num_buckets < 2 ^ 29)
    (htot : total_entries map < 2 ^ 29) :
    ∃ r, fmap_pushp fuel map key junk = some r := by
  obtain ⟨after, h⟩ := push_returns fuel map key [] hfuel hcap hlen h64 hnum htot
  have hb := pushp_bind_store fuel map key [] junk
  rw [h] at hb
  cases hp : fmap_pushp fuel map key junk with
  | none => rw [hp] at hb; cases hb
  | some r => exact ⟨r, rfl⟩

/-! ## Insertions that never grow the table -/

theorem insert_entryp_of_slot (map : fmap) (key junk : List Nat) (chain : List fmapentry)
    (hcap : map.bucket_cap ≠ 0) (h : map.buckets[lookup_index map key]? = some chain) :
    (insert_entryp map key junk).map (fun r => r.1) =
      some { map with
        buckets := map.buckets.set (lookup_index map key)
          (chain ++ [(fmap_initialize_fmapentryp map (alloc_entry map junk)
            (to_uint32 (c_abs (to_int32 (map.hashfunc key map.key1_size)))) key).1])
        num_buckets := if chain = [] then map.num_buckets + 1 else map.num_buckets } := by
  rw [insert_entryp_eq map key junk hcap]
  have h2 := fmap_new_entryp_of_slot map key junk
    (to_uint32 (c_abs (to_int32 (map.hashfunc key map.key1_size)))) (lookup_index map key)
    chain h
  unfold lookup_index at h2 ⊢
  rw [h2]
  rfl

theorem insert_call_of_slot (map : fmap) (call : Call) (chain : List fmapentry)
    (hcap : map.bucket_cap ≠ 0) (h : map.buckets[lookup_index map call.key]? = some chain) :
    ∃ entry : fmapentry, insert_call map call =
      some { map with
        buckets := map.buckets.set (lookup_index map call.key) (chain ++ [entry])
        num_buckets := if chain = [] then map.num_buckets + 1 else map.num_buckets } := by
  cases call with
  | push key val => exact ⟨_, insert_entry_of_slot map key val chain hcap h⟩
  | push_slot key junk => exact ⟨_, insert_entryp_of_slot map key junk chain hcap h⟩

theorem run_call_eq_insert_call (fuel : Nat) (map : fmap) (call : Call)
    (hno : ¬ (map.bucket_cap ≠ 0 ∧ map.num_buckets ≠ 0 ∧
      load_factor_exceeds map.num_buckets map.bucket_cap = true)) :
    run_call (fuel + 1) map call = insert_call map call := by
  cases call with
  | push key val =>
    show fmap_push (fuel + 1) map key val = insert_entry map key val
    rw [fmap_push_unfold, if_neg hno, Option.some_bind]
  | push_slot key junk =>
    show (fmap_pushp (fuel + 1) map key junk).map (fun r => r.1)
      = (insert_entryp map key junk).map (fun r => r.1)
    rw [fmap_pushp_unfold, if_neg hno, Option.some_bind]

theorem lookup_index_congr (t map : fmap) (key : List Nat) (hf : t.hashfunc = map.hashfunc)
    (hk : t.key1_size = map.key1_size) (hc : t.bucket_cap = map.bucket_cap) :
    lookup_index t key = lookup_index map key := by
  unfold lookup_index
  rw [hf, hk, hc]

theorem insert_call_never_grown (fresh t : fmap) (call : Call) (seen : List Nat)
    (hcap : fresh.bucket_cap ≠ 0) (h : never_grown fresh t seen) :
    ∃ t', insert_call t call = some t' ∧
      never_grown fresh t' (lookup_index fresh call.key :: seen) := by
  obtain ⟨h1, h2, h3, h4, h5, h6, h7, h8⟩ := h
  have hidx : lookup_index t call.key = lookup_index fresh call.key :=
    lookup_index_congr t fresh call.key h3 h4 h1
  have hcap' : t.bucket_cap ≠ 0 := by rw [h1]; exact hcap
  have hlt : lookup_index t call.key < t.buckets.length := by
    rw [h2, ← h1]
    exact lookup_index_lt t call.key hcap'
  have hslot : t.buckets[lookup_index t call.key]?
      = some (t.buckets[lookup_index t call.key]) := List.getElem?_eq_getElem hlt
  obtain ⟨entry, hins⟩ := insert_call_of_slot t call _ hcap' hslot
  refine ⟨_, hins, h1, ?_, h3, h4, ?_, ?_, ?_, ?_⟩
  · show (t.buckets.set _ _).length = fresh.bucket_cap
    rw [List.length_set]
    exact h2
  · show (if t.buckets[lookup_index t call.key] = [] then t.num_buckets + 1
      else t.num_buckets) = (lookup_index fresh call.key :: seen).toFinset.card
    rw [List.toFinset_cons]
    by_cases hempty : t.buckets[lookup_index t call.key] = []
    · rw [if_pos hempty]
      have hnew : lookup_index fresh call.key ∉ seen.toFinset := by
        rw [List.mem_toFinset]
        intro hmem
        obtain ⟨chain, hc1, hc2⟩ := h6 _ hmem
        rw [← hidx, hslot, hempty] at hc1
        exact hc2 (Option.some.inj hc1).symm
      rw [Finset.card_insert_of_not_mem hnew, h5]
    · rw [if_neg hempty]
      have hold : lookup_index fresh call.key ∈ seen.toFinset := by
        rw [List.mem_toFinset, ← hidx]
        exact h7 _ _ hslot hempty
      rw [Finset.insert_eq_of_mem hold]
      exact h5
  · intro j hj
    show ∃ chain, (t.buckets.set (lookup_index t call.key) _)[j]? = some chain ∧ chain ≠ []
    by_cases hji : j = lookup_index t call.key
    · subst hji
      exact ⟨_, List.getElem?_set_self hlt, by simp⟩
    · rw [List.getElem?_set_ne (Ne.symm hji)]
      rw [hidx] at hji
      rcases List.mem_cons.1 hj with hj1 | hj2
      · exact absurd hj1 hji
      · exact h6 j hj2
  · intro j chain
    show (t.buckets.set (lookup_index t call.key) _)[j]? = some chain → chain ≠ [] →
      j ∈ lookup_index fresh call.key :: seen
    by_cases hji : j = lookup_index t call.key
    · intro _ _
      rw [hji, hidx]
      exact List.mem_cons_self _ _
    · rw [List.getElem?_set_ne (Ne.symm hji)]
      intro hj hne
      exact List.mem_cons_of_mem _ (h7 j chain hj hne)
  · show (t.buckets.set _ _).flatten.length = (lookup_index fresh call.key :: seen).length
    rw [flatten_length_set_append _ _ _ _ hslot, List.length_cons]
    unfold total_entries at h8
    omega

theorem run_calls_never_grow (fresh : fmap) (fuel : Nat) (S : Finset Nat)
    (hc : 1 ≤ fresh.bucket_cap) (hc24 : fresh.bucket_cap < 2 ^ 24)
    (hS : S.card ≤ 3 * fresh.bucket_cap / 4) :
    ∀ (calls : List Call) (t : fmap) (seen : List Nat), never_grown fresh t seen →
      (∀ j ∈ seen, j ∈ S) → (∀ call ∈ calls, lookup_index fresh call.key ∈ S) →
      run_calls (fuel + 1) t calls = run_inserts t calls ∧
      ∃ t', run_calls (fuel + 1) t calls = some t' ∧
        never_grown fresh t'
          ((calls.map (fun call => lookup_index fresh call.key)).reverse ++ seen) := by
  intro calls
  induction calls with
  | nil =>
    intro t seen h _ _
    exact ⟨rfl, t, rfl, h⟩
  | cons call rest ih =>
    intro t seen h hseen hcalls
    have hnum : t.num_buckets ≤ S.card :=
      le_trans (le_of_eq h.2.2.2.2.1)
        (Finset.card_le_card (fun j hj => hseen j (List.mem_toFinset.1 hj)))
    have hno : ¬ (t.bucket_cap ≠ 0 ∧ t.num_buckets ≠ 0 ∧
        load_factor_exceeds t.num_buckets t.bucket_cap = true) := by
      rintro ⟨_, hn0, hl⟩
      rw [h.1, load_factor_not_exceeds _ _ (Nat.pos_of_ne_zero hn0) (by omega) (by omega) hc24
        (by omega)] at hl
      cases hl
    obtain ⟨t1, hins, hinv⟩ := insert_call_never_grown fresh t call seen (by omega) h
    have hstep : run_call (fuel + 1) t call = some t1 :=
      (run_call_eq_insert_call fuel t call hno).trans hins
    obtain ⟨heq, t2, hrun, hinv2⟩ := ih t1 (lookup_index fresh call.key :: seen) hinv
      (fun j hj => by
        rcases List.mem_cons.1 hj with hj1 | hj2
        · rw [hj1]
          exact hcalls call (List.mem_cons_self _ _)
        · exact hseen j hj2)
      (fun c hcmem => hcalls c (List.mem_cons_of_mem _ hcmem))
    have hunfold : run_calls (fuel + 1) t (call :: rest) = run_calls (fuel + 1) t1 rest := by
      unfold run_calls
      rw [List.foldl_cons, Option.some_bind, hstep]
    have hunfold2 : run_inserts t (call :: rest) = run_inserts t1 rest := by
      unfold run_inserts
      rw [List.foldl_cons, Option.some_bind, hins]
    refine ⟨by rw [hunfold, hunfold2, heq], t2, by rw [hunfold, hrun], ?_⟩
    have hlist : (List.map (fun call => lookup_index fresh call.key) (call :: rest)).reverse
        ++ seen = (List.map (fun call => lookup_index fresh call.key) rest).reverse
          ++ (lookup_index fresh call.key :: seen) := by
      rw [List.map_cons, List.reverse_cons, List.append_assoc, List.singleton_append]
    rw [hlist]
    exact hinv2

theorem fmap_init_num_bucket_cap (prior : fmap) (key_size value_size : Nat)
    (hashfunc : List Nat → Nat → Nat) (c : Nat) (hc : c < 2 ^ 64) :
    (fmap_init_num prior key_size value_size hashfunc c).1.bucket_cap = c := by
  show to_size_t (c : Int) = c
  unfold to_size_t
  omega

theorem fmap_init_num_never_grown (prior : fmap) (key_size value_size : Nat)
    (hashfunc : List Nat → Nat → Nat) (num : Int) :
    never_grown (fmap_init_num prior key_size value_size hashfunc num).1
      (fmap_init_num prior key_size value_size hashfunc num).1 [] := by
  refine ⟨rfl, ?_, rfl, rfl, rfl, fun j hj => absurd hj (List.not_mem_nil j), ?_, ?_⟩
  · exact List.length_replicate _ _
  · intro j chain hj hne
    exact absurd (List.eq_of_mem_replicate (List.getElem?_mem hj)) hne
  · show (List.replicate (to_size_t num) ([] : List fmapentry)).flatten.length = 0
    rw [replicate_nil_flatten]
    rfl

/-! ## Heavy collisions -/

/-- C13, amended: on a fresh table of capacity `c` with `1 <= c < 2 ^ 24`, every
sequence of `push` and `push_slot` calls whose keys fall into at most
`floor(3 * c / 4)` distinct slots runs without any growth: it does what the
same calls do with the growth decision left out, it returns, `bucket_cap` and
the array length stay `c`, and the table holds one block per call. -/
theorem heavy_collisions_never_grow (fuel c : Nat) (prior : fmap) (key_size value_size : Nat)
    (hashfunc : List Nat → Nat → Nat) (calls : List Call)
    (hfuel : 1 ≤ fuel) (hc : 1 ≤ c) (hc24 : c < 2 ^ 24)
    (hslots : (calls.map (fun call => lookup_index
      (fmap_init_num prior key_size value_size hashfunc c).1 call.key)).toFinset.card
        ≤ 3 * c / 4) :
    run_calls fuel (fmap_init_num prior key_size value_size hashfunc c).1 calls
      = run_inserts (fmap_init_num prior key_size value_size hashfunc c).1 calls ∧
    ∃ t, run_calls fuel (fmap_init_num prior key_size value_size hashfunc c).1 calls = some t ∧
      t.bucket_cap = c ∧ t.buckets.length = c ∧ total_entries t = calls.length := by
  obtain ⟨f, rfl⟩ : ∃ f, fuel = f + 1 := ⟨fuel - 1, by omega⟩
  have hcap := fmap_init_num_bucket_cap prior key_size value_size hashfunc c (by omega)
  have hfresh := fmap_init_num_never_grown prior key_size value_size hashfunc c
  generalize (fmap_init_num prior key_size value_size hashfunc c).1 = fresh at hcap hfresh hslots ⊢
  subst hcap
  have hmem : ∀ call ∈ calls, lookup_index fresh call.key ∈
      (calls.map (fun call => lookup_index fresh call.key)).toFinset :=
    fun call hcall => List.mem_toFinset.2 (List.mem_map.2 ⟨call, hcall, rfl⟩)
  have key := run_calls_never_grow fresh f
    ((calls.map (fun call => lookup_index fresh call.key)).toFinset) hc hc24
  have key2 := key hslots
  obtain ⟨heq, t, hrun, hinv⟩ := key2 calls fresh [] hfresh
    (fun j hj => absurd hj (List.not_mem_nil j)) hmem
  have htotal := hinv.2.2.2.2.2.2.2
  rw [List.append_nil, List.length_reverse, List.length_map] at htotal
  exact ⟨heq, t, hrun, hinv.1, hinv.2.1, htotal⟩

/-- C13 amended, on a fresh table of capacity 16 and twenty calls with the keys
1, 17, 33, ..., which all fall into slot 1: no growth, twenty blocks. -/
theorem heavy_collisions_never_grow_witness :
    (1 ≤ 1 ∧ 1 ≤ 16 ∧ 16 < 2 ^ 24 ∧
      (((List.range 20).map (fun i => Call.push (key32 (16 * i + 1)) (val64 i))).map
        (fun call => lookup_index (fmap_init_num blank 4 8 hash_u32 (16 : Nat)).1
          call.key)).toFinset.card ≤ 3 * 16 / 4) ∧
    ∃ t, run_calls 1 (fmap_init_num blank 4 8 hash_u32 (16 : Nat)).1
        ((List.range 20).map (fun i => Call.push (key32 (16 * i + 1)) (val64 i))) = some t ∧
      t.bucket_cap = 16 ∧ t.buckets.length = 16 ∧
      total_entries t
        = ((List.range 20).map (fun i => Call.push (key32 (16 * i + 1)) (val64 i))).length :=
  ⟨⟨by decide, by decide, by decide, by decide⟩,
    (heavy_collisions_never_grow 1 16 blank 4 8 hash_u32
      ((List.range 20).map (fun i => Call.push (key32 (16 * i + 1)) (val64 i)))
      (by decide) (by decide) (by decide) (by decide)).2⟩

theorem lookup_index_key32 (fresh : fmap) (k : Nat) (hh : fresh.hashfunc = hash_u32)
    (hk : k < fresh.bucket_cap) (hc : fresh.bucket_cap < 2 ^ 31) :
    lookup_index fresh (key32 k) = k := by
  unfold lookup_index
  rw [hh, hash_u32_key32 k _ (by omega), abs_hash_small k (by omega), index_small k _ hk hc]

theorem range_reverse_card (k : Nat) : (List.range k).reverse.toFinset.card = k := by
  rw [List.toFinset_card_of_nodup (List.nodup_reverse.2 (List.nodup_range k)),
    List.length_reverse, List.length_range]

theorem run_calls_append (fuel : Nat) (map : fmap) (calls : List Call) (call : Call) :
    run_calls fuel map (calls ++ [call])
      = (run_calls fuel map calls).bind (fun t => run_call fuel t call) := by
  unfold run_calls
  rw [List.foldl_append]
  rfl

theorem distinct_calls_succ (k : Nat) :
    distinct_calls (k + 1) = distinct_calls k ++ [Call.push (key32 k) (val64 (2 * k))] := by
  unfold distinct_calls
  rw [List.range_succ, List.map_append]
  rfl

theorem distinct_calls_fill (fresh : fmap) (fuel n : Nat) (hh : fresh.hashfunc = hash_u32)
    (hc : fresh.bucket_cap < 2 ^ 31) (hn : n ≤ fresh.bucket_cap)
    (hfresh : never_grown fresh fresh [])
    (hquiet : ∀ m, 0 < m → m < n → load_factor_exceeds m fresh.bucket_cap = false) :
    ∀ k, k ≤ n → ∃ t, run_calls (fuel + 1) fresh (distinct_calls k) = some t ∧
      never_grown fresh t (List.range k).reverse := by
  intro k
  induction k with
  | zero =>
    intro _
    exact ⟨fresh, rfl, hfresh⟩
  | succ k ih =>
    intro hk
    obtain ⟨t, hrun, hinv⟩ := ih (by omega)
    have hnum : t.num_buckets = k := hinv.2.2.2.2.1.trans (range_reverse_card k)
    have hno : ¬ (t.bucket_cap ≠ 0 ∧ t.num_buckets ≠ 0 ∧
        load_factor_exceeds t.num_buckets t.bucket_cap = true) := by
      rintro ⟨_, hn0, hl⟩
      rw [hinv.1, hnum, hquiet k (by omega) (by omega)] at hl
      cases hl
    obtain ⟨t1, hins, hinv1⟩ := insert_call_never_grown fresh t
      (Call.push (key32 k) (val64 (2 * k))) _ (by omega) hinv
    have hidx : lookup_index fresh (Call.push (key32 k) (val64 (2 * k))).key = k :=
      lookup_index_key32 fresh k hh (by omega) hc
    rw [hidx] at hinv1
    refine ⟨t1, ?_, ?_⟩
    · rw [distinct_calls_succ, run_calls_append, hrun, Option.some_bind,
        run_call_eq_insert_call fuel t _ hno, hins]
    · rw [List.range_succ, List.reverse_append, List.reverse_singleton, List.singleton_append]
      exact hinv1

theorem push_grows_doubles (fuel : Nat) (map after : fmap) (key val : List Nat)
    (hcap : map.bucket_cap ≠ 0) (hnum : map.num_buckets ≠ 0)
    (hload : load_factor_exceeds map.num_buckets map.bucket_cap = true)
    (h : fmap_push (fuel + 1) map key val = some after) :
    after.bucket_cap = map.bucket_cap * 2 := by
  rw [fmap_push_unfold, if_pos ⟨hcap, hnum, hload⟩] at h
  obtain ⟨grown, hg, hi⟩ := Option.bind_eq_some.1 h
  rw [insert_entry_bucket_cap grown after key val hi]
  exact fmap_grow_with_bucket_cap _ map grown hg

theorem load_factor_quiet_wide (m : Nat) (h0 : 0 < m) (hm : m < 16777227) :
    load_factor_exceeds m 22369637 = false := by
  by_cases h24 : m < 2 ^ 24
  · have hc : f32_of_nat 22369637 = 22369636 := by decide
    have hlog : ilog2 22369636 ≤ 126 + ilog2 m := by
      have := ilog2_le_of_le_pow 22369636 25 (by decide) (by decide)
      omega
    have h := f32_quotient_not_exceeds m 22369636 h0 (by decide) hlog (by omega)
    unfold load_factor_exceeds
    simp only [f32_of_nat_exact m h0 h24, hc, decide_eq_false_iff_not]
    omega
  · have h24' : 16777216 ≤ m := by
      have : (2 : Nat) ^ 24 = 16777216 := by norm_num
      omega
    interval_cases m <;> decide

theorem distinct_calls_slots (fresh : fmap) (n : Nat) (val : List Nat)
    (hh : fresh.hashfunc = hash_u32) (hc : fresh.bucket_cap < 2 ^ 31)
    (hn : n ≤ fresh.bucket_cap) (h0 : 0 < n) :
    ((distinct_calls n ++ [Call.push (key32 0) val]).map
      (fun call => lookup_index fresh call.key)).toFinset.card ≤ n := by
  have hmap : (distinct_calls n).map (fun call => lookup_index fresh call.key)
      = List.range n := by
    unfold distinct_calls
    rw [List.map_map]
    have hid : ∀ k ∈ List.range n,
        ((fun call => lookup_index fresh call.key) ∘
          (fun k => Call.push (key32 k) (val64 (2 * k)))) k = id k := by
      intro k hk
      exact lookup_index_key32 fresh k hh (by have := List.mem_range.1 hk; omega) hc
    rw [List.map_congr_left hid, List.map_id]
  have hlast : lookup_index fresh (Call.push (key32 0) val).key = 0 :=
    lookup_index_key32 fresh 0 hh (by omega) hc
  rw [List.map_append, hmap, List.map_singleton, hlast, List.toFinset_append]
  have hsub : ([0] : List Nat).toFinset ⊆ (List.range n).toFinset := by
    intro j hj
    rw [List.mem_toFinset, List.mem_singleton] at hj
    rw [List.mem_toFinset, hj]
    exact List.mem_range.2 h0
  rw [Finset.union_eq_left.2 hsub]
  exact le_trans (List.toFinset_card_le _) (le_of_eq (List.length_range n))

theorem table_wide_bucket_cap : table_wide.bucket_cap = 22369637 := by
  decide

/-- C13 as stated fails.  On the fresh table of capacity 22369637, the pushes
of the keys `0 .. 16777226` occupy 16777227 slots, which is
`floor(0.75 * 22369637)`; one more push of the key 0 maps to a slot already
counted, so the whole sequence maps to no more than `floor(0.75 * c)` slots.
That last push finds `(float)16777227 / (float)22369637` above `0.75` in single
precision (16777227 converts to 16777228 and 22369637 to 22369636), grows
the table, and leaves `bucket_cap` at 44739274. -/
theorem heavy_collisions_can_grow :
    table_wide.bucket_cap = 22369637 ∧
    ((distinct_calls 16777227 ++ [Call.push (key32 0) (val64 0)]).map
      (fun call => lookup_index table_wide call.key)).toFinset.card ≤ 3 * 22369637 / 4 ∧
    ∃ t, run_calls 32 table_wide (distinct_calls 16777227 ++ [Call.push (key32 0) (val64 0)])
        = some t ∧ t.bucket_cap = 44739274 := by
  have hcapw := table_wide_bucket_cap
  have hh : table_wide.hashfunc = hash_u32 := rfl
  have hfresh : never_grown table_wide table_wide [] :=
    fmap_init_num_never_grown blank 4 8 hash_u32 22369637
  have hc31 : table_wide.bucket_cap < 2 ^ 31 := by
    rw [hcapw]
    norm_num
  have hn : 16777227 ≤ table_wide.bucket_cap := by
    rw [hcapw]
    norm_num
  have hquiet : ∀ m, 0 < m → m < 16777227 →
      load_factor_exceeds m table_wide.bucket_cap = false := by
    intro m h0 hm
    rw [hcapw]
    exact load_factor_quiet_wide m h0 hm
  obtain ⟨t, hrun, hinv⟩ := distinct_calls_fill table_wide 31 16777227 hh hc31 hn hfresh
    hquiet 16777227 (le_refl _)
  have hnum : t.num_buckets = 16777227 := hinv.2.2.2.2.1.trans (range_reverse_card _)
  have hcap : t.bucket_cap = 22369637 := hinv.1.trans hcapw
  have hlen : t.buckets.length = 22369637 := hinv.2.1.trans hcapw
  have htot : total_entries t = 16777227 := by
    rw [hinv.2.2.2.2.2.2.2, List.length_reverse, List.length_range]
  have hload : load_factor_exceeds t.num_buckets t.bucket_cap = true := by
    rw [hnum, hcap]
    decide
  obtain ⟨after, hafter⟩ := push_returns 32 t (key32 0) (val64 0) (le_refl _)
    (by rw [hcap]; norm_num) (by rw [hcap, hlen]) (by rw [hcap]; norm_num)
    (by rw [hnum]; norm_num) (by rw [htot]; norm_num)
  have hdouble := push_grows_doubles 31 t after (key32 0) (val64 0)
    (by rw [hcap]; norm_num) (by rw [hnum]; norm_num) hload hafter
  refine ⟨hcapw, ?_, after, ?_, ?_⟩
  · have hcard := distinct_calls_slots table_wide 16777227 (val64 0) hh hc31 hn (by norm_num)
    have hfloor : 16777227 ≤ 3 * 22369637 / 4 := by norm_num
    exact le_trans hcard hfloor
  · rw [run_calls_append, hrun, Option.some_bind]
    exact hafter
  · rw [hdouble, hcap]

/-! ## Counter and placement across growth -/

set_option maxRecDepth 100000 in
/-- C12 (the code departs from it): after the keys 0 .. 11, 16 and 12 are pushed
into a fresh table of capacity 16 the counter is 13 and 13 slots hold a chain.
The call `push(13, 26)` grows the table to capacity 32: key 16 moves from the
chain of slot 0 to slot 16, so 15 slots hold a chain, while the counter, which
`fmap_grow` leaves as it was, is 14. -/
theorem counter_stale_after_growth :
    (push_keys 1 table16 [0, 1, 2, 3, 4, 5, 6, 7, 8, 9, 10, 11, 16, 12]).map
      (fun m => (m.bucket_cap, m.num_buckets, occupied_count m)) = some (16, 13, 13) ∧
    (push_keys 2 table16 [0, 1, 2, 3, 4, 5, 6, 7, 8, 9, 10, 11, 16, 12, 13]).map
      (fun m => (m.bucket_cap, m.num_buckets, occupied_count m)) = some (32, 14, 15) := by
  refine ⟨by decide, by decide⟩

/-- C15 (the code departs from it): with the keys 1 and 17 chained in slot 1 of
a fresh table of capacity 16, `get(1)` finds the block of key 1 by comparing
keys and returns the address of the block itself, offset 0, while the value
region of the block lies `header_size + key_size = 20` bytes further. -/
theorem get_match_returns_block_start :
    (push_keys 1 table16 [1, 17]).map
      (fun m => (fmap_get m (key32 1), fmap_get_value_from_fmapentry m)) =
    some (some (some { slot := 1, pos := 0, off := 0 }), 20) := by
  decide

set_option maxRecDepth 100000 in
/-- C17 (the code departs from it): after the keys of `crowded_keys` and 31 the
table has capacity 32 and every block sits in the slot computed for its key.
The call `push(63, 126)` grows the table; afterwards `bucket_cap` is 64 and 19
blocks sit in other slots than lookup computes: the block of key 96 sits in
slot 96, while lookup computes slot 32 for it. -/
theorem growth_misplaces_entries :
    (push_keys 2 table16 (crowded_keys ++ [31])).map
      (fun m => (m.bucket_cap, placement_holds m)) = some (32, true) ∧
    (push_keys 3 table16 nested_keys).map
      (fun m => ((m.bucket_cap, placement_holds m),
        (lookup_index m (key32 96), (misplaced m).head?, (misplaced m).length))) =
    some ((64, false), (32, some (96, key32 96), 19)) := by
  refine ⟨by decide, by decide⟩

/-! ## Lookup, as the code performs it -/

/-- C14 as stated fails: with the keys 1 and 17 chained in slot 1 of a fresh
table of capacity 16, `get(33)` walks that chain, matches neither block before
the last one and returns `NULL`, not the last block. -/
theorem get_does_not_fall_back_to_last :
    (push_keys 1 table16 [1, 17]).map
      (fun m => (lookup_index m (key32 33), (m.buckets[1]?).map (fun c => c.map (fun e => e.key)),
        fmap_get m (key32 33))) =
    some (1, some [key32 1, key32 17], some none) := by
  decide

/-- C14, amended: `get` tests for a last node before comparing keys only on
the head of the chain.  For a slot whose chain has exactly one block it
returns the value region of that block without comparing its key; for a chain
of two or more blocks, a key that matches no block before the last one yields
`NULL`, so the last block is never returned as a fallback. -/
theorem get_fallback_only_on_single_chain (map : fmap) (key : List Nat)
    (hcap : map.bucket_cap ≠ 0) :
    (∀ entry : fmapentry, map.buckets[lookup_index map key]? = some [entry] →
      fmap_get map key = some (some
        { slot := lookup_index map key, pos := 0, off := header_size + map.key1_size })) ∧
    (∀ (entry nxt : fmapentry) (rest : List fmapentry),
      map.buckets[lookup_index map key]? = some (entry :: nxt :: rest) →
      (∀ x ∈ (entry :: nxt :: rest).dropLast,
        key.take map.key1_size ≠ x.key.take map.key1_size) →
      fmap_get map key = some none) := by
  refine ⟨fun entry h => fmap_get_of_single map key entry hcap h, ?_⟩
  intro entry nxt rest h hno
  rw [fmap_get_eq map key hcap, h]
  simp only []
  rw [fmap_get_loop_no_match map key _ (nxt :: rest) 0 entry (by simp) hno]

/-- The two cases of the amended C14 on the fresh table of capacity 16 after
`push(1, 2)`: `get(17)` returns the value region of the only block of slot 1. -/
theorem get_fallback_only_on_single_chain_witness :
    table_one.bucket_cap ≠ 0 ∧
    fmap_get table_one (key32 17) = some (some
      { slot := lookup_index table_one (key32 17), pos := 0,
        off := header_size + table_one.key1_size }) :=
  ⟨by decide,
    (get_fallback_only_on_single_chain table_one (key32 17) (by decide)).1
      (fmap_initialize_fmapentry table16 (alloc_entry table16 []) 1 (key32 1) (val64 2))
      (by decide)⟩

/-! ## Hash and index -/

/-- C16: for a table with `bucket_cap >= 1` and a key whose 32-bit hash `h` is
not `2 ^ 31`, let `a` be `h` read as a signed integer and made positive.  Then
`a mod bucket_cap` is below `bucket_cap` (so with an array of at least
`bucket_cap` slots the slot exists); `get` reads the chain of slot
`a mod bucket_cap`; and `push` and `push_slot` store the hash `a` and insert
into slot `a mod bucket_cap`, for the capacity of the table they insert into. -/
theorem index_derivation (fuel : Nat) (map : fmap) (key val junk : List Nat)
    (hcap : 1 ≤ map.bucket_cap)
    (hh : map.hashfunc key map.key1_size % 2 ^ 32 ≠ 2 ^ 31) :
    (abs_signed (map.hashfunc key map.key1_size % 2 ^ 32)) % map.bucket_cap
        < map.bucket_cap ∧
    (map.bucket_cap ≤ map.buckets.length →
      ∃ chain, map.buckets[(abs_signed (map.hashfunc key map.key1_size % 2 ^ 32)) % map.bucket_cap]?
          = some chain) ∧
    fmap_get map key =
      (match map.buckets[(abs_signed (map.hashfunc key map.key1_size % 2 ^ 32)) % map.bucket_cap]? with
        | none => none
        | some [] => some none
        | some (entry :: rest) =>
          some (fmap_get_loop map key
            ((abs_signed (map.hashfunc key map.key1_size % 2 ^ 32)) % map.bucket_cap)
            0 entry rest)) ∧
    fmap_push (fuel + 1) map key val =
      (if map.bucket_cap ≠ 0 ∧ map.num_buckets ≠ 0 ∧
          load_factor_exceeds map.num_buckets map.bucket_cap = true
        then fmap_grow fuel map else some map).bind (fun m =>
          fmap_new_entry m key
            (abs_signed (map.hashfunc key map.key1_size % 2 ^ 32)) val
            ((abs_signed (map.hashfunc key map.key1_size % 2 ^ 32)) % m.bucket_cap)) ∧
    fmap_pushp (fuel + 1) map key junk =
      (if map.bucket_cap ≠ 0 ∧ map.num_buckets ≠ 0 ∧
          load_factor_exceeds map.num_buckets map.bucket_cap = true
        then fmap_grow fuel map else some map).bind (fun m =>
          fmap_new_entryp m key
            (abs_signed (map.hashfunc key map.key1_size % 2 ^ 32))
            ((abs_signed (map.hashfunc key map.key1_size % 2 ^ 32)) % m.bucket_cap) junk) := by
  have hcap0 : map.bucket_cap ≠ 0 := by omega
  have ha : to_uint32 (c_abs (to_int32 (map.hashfunc key map.key1_size)))
      = abs_signed (map.hashfunc key map.key1_size % 2 ^ 32) :=
    abs_hash_eq (map.hashfunc key map.key1_size) hh
  generalize hadef : abs_signed (map.hashfunc key map.key1_size % 2 ^ 32) = a at ha ⊢
  have halt : a < 2 ^ 31 := by
    rw [← hadef]
    unfold abs_signed
    split_ifs <;> omega
  have hmod : a % map.bucket_cap < map.bucket_cap := Nat.mod_lt _ (by omega)
  have hins : ∀ m : fmap, m.bucket_cap ≠ 0 → m.hashfunc = map.hashfunc →
      m.key1_size = map.key1_size →
      insert_entry m key val = fmap_new_entry m key a val (a % m.bucket_cap) ∧
      insert_entryp m key junk = fmap_new_entryp m key a (a % m.bucket_cap) junk := by
    intro m hm hf hk
    rw [insert_entry_eq m key val hm, insert_entryp_eq m key junk hm, hf, hk, ha,
      abs_index_eq a m.bucket_cap halt]
    exact ⟨rfl, rfl⟩
  have hbind : ∀ grown : Option fmap, (∀ m, grown = some m → m.bucket_cap ≠ 0 ∧
      m.hashfunc = map.hashfunc ∧ m.key1_size = map.key1_size) →
      grown.bind (fun m => insert_entry m key val)
        = grown.bind (fun m => fmap_new_entry m key a val (a % m.bucket_cap)) ∧
      grown.bind (fun m => insert_entryp m key junk)
        = grown.bind (fun m => fmap_new_entryp m key a (a % m.bucket_cap) junk) := by
    intro grown hg
    cases grown with
    | none => exact ⟨rfl, rfl⟩
    | some m =>
      obtain ⟨h1, h2, h3⟩ := hg m rfl
      exact hins m h1 h2 h3
  have hgrown : ∀ m, (if map.bucket_cap ≠ 0 ∧ map.num_buckets ≠ 0 ∧
      load_factor_exceeds map.num_buckets map.bucket_cap = true
      then fmap_grow fuel map else some map) = some m →
      m.bucket_cap ≠ 0 ∧ m.hashfunc = map.hashfunc ∧ m.key1_size = map.key1_size := by
    intro m hm
    split_ifs at hm
    · obtain ⟨h1, h2, _, _, _, h6⟩ := fmap_grow_with_fields _ _ _ hm
      exact ⟨by omega, h1, h2⟩
    · cases hm
      exact ⟨hcap0, rfl, rfl⟩
  refine ⟨hmod, ?_, ?_, ?_, ?_⟩
  · intro hlen
    exact ⟨_, List.getElem?_eq_getElem (lt_of_lt_of_le hmod hlen)⟩
  · have hidx : lookup_index map key = a % map.bucket_cap := by
      unfold lookup_index
      rw [ha, abs_index_eq a map.bucket_cap halt]
    rw [fmap_get_eq map key hcap0, hidx]
  · rw [fmap_push_unfold]
    exact (hbind _ hgrown).1
  · rw [fmap_pushp_unfold]
    exact (hbind _ hgrown).2

/-- C16 on the fresh table of capacity 16 and the key 17, whose hash is 17: the
index is `17 mod 16`, below 16. -/
theorem index_derivation_witness :
    (1 ≤ table16.bucket_cap ∧
      table16.hashfunc (key32 17) table16.key1_size % 2 ^ 32 ≠ 2 ^ 31) ∧
    (abs_signed (table16.hashfunc (key32 17) table16.key1_size % 2 ^ 32))
        % table16.bucket_cap < table16.bucket_cap :=
  ⟨⟨by decide, by decide⟩,
    (index_derivation 0 table16 (key32 17) (val64 34) [] (by decide) (by decide)).1⟩

/-! ## Termination -/

/-- C18: for a table whose `bucket_cap` is at least 1, fits a `size_t` and does
not exceed the length of the bucket array, and whose counter and number of
blocks are below `2 ^ 29`, the calls `push`, `push_slot` and `get` return, and
so does `grow` when `bucket_cap` is below `2 ^ 30`.  A recursion budget of 32
is enough whatever the hash function and the content of the table, so the
recursion of `grow` through `push` into the temporary table is at most 32
calls deep. -/
theorem operations_return (fuel : Nat) (map : fmap) (key val junk : List Nat)
    (hfuel : 32 ≤ fuel) (hcap : 1 ≤ map.bucket_cap)
    (hlen : map.bucket_cap ≤ map.buckets.length) (h64 : map.bucket_cap < 2 ^ 64)
    (hnum : map.num_buckets < 2 ^ 29) (htot : total_entries map < 2 ^ 29) :
    (∃ after, fmap_push fuel map key val = some after) ∧
    (∃ r, fmap_pushp fuel map key junk = some r) ∧
    (∃ r, fmap_get map key = some r) ∧
    (map.bucket_cap < 2 ^ 30 → ∃ grown, fmap_grow fuel map = some grown) := by
  refine ⟨push_returns fuel map key val hfuel hcap hlen h64 hnum htot,
    pushp_returns fuel map key junk hfuel hcap hlen h64 hnum htot, ?_, ?_⟩
  · have hcap0 : map.bucket_cap ≠ 0 := by omega
    have hlt : lookup_index map key < map.buckets.length :=
      lt_of_lt_of_le (lookup_index_lt map key hcap0) hlen
    rw [fmap_get_eq map key hcap0, List.getElem?_eq_getElem hlt]
    cases map.buckets[lookup_index map key] with
    | nil => exact ⟨_, rfl⟩
    | cons entry rest => exact ⟨_, rfl⟩
  · intro h30
    have hnew : map.bucket_cap * 2 < 2 ^ 31 := by
      have : (2 : Nat) ^ 31 = 2 * 2 ^ 30 := by norm_num
      omega
    have htmp : in_range (fmap_init_num map map.key1_size map.key2_size map.hashfunc
        (to_int32 (map.bucket_cap * 2))).1 0 := by
      unfold in_range total_entries fmap_init_num
      simp only [to_size_t_to_int32 _ hnew, List.length_replicate, replicate_nil_flatten,
        List.length_nil]
      refine ⟨by omega, le_refl _, ?_, le_refl _, le_refl _⟩
      have : (2 : Nat) ^ 31 < 2 ^ 64 := by norm_num
      omega
    have hwalk : (map.buckets.take map.bucket_cap).flatten.length ≤ 2 ^ 29 :=
      le_trans (take_flatten_length_le _ _) (le_of_lt htot)
    obtain ⟨filled, hfold, _, _⟩ := fold_push_returns (fmap_push fuel) 0 (2 ^ 29)
      (fun t' key' val' a' hr' ha' _ =>
        push_returns_in_range (2 ^ 29) (le_refl _) 31 fuel (by omega) t' key' val' a' hr' ha' (by
          have h0 : 1 ≤ t'.bucket_cap := Nat.pos_of_ne_zero hr'.1
          have h1 : 1 * 2 ^ 31 ≤ t'.bucket_cap * 2 ^ 31 := Nat.mul_le_mul_right _ h0
          have h2 : (2 : Nat) * 2 ^ 29 ≤ 1 * 2 ^ 31 := by norm_num
          omega))
      (map.buckets.take map.bucket_cap).flatten _ 0 htmp (by omega) (Nat.zero_le _)
    exact ⟨_, fmap_grow_with_of_fold (fmap_push fuel) map filled hlen hfold⟩

set_option maxRecDepth 100000 in
/-- C18 on the fresh table of capacity 16 after the keys 1 .. 5: `push(17, 34)`
returns with budget 32. -/
theorem operations_return_witness :
    (32 ≤ 32 ∧ 1 ≤ table_five.bucket_cap ∧ table_five.bucket_cap ≤ table_five.buckets.length ∧
      table_five.bucket_cap < 2 ^ 64 ∧ table_five.num_buckets < 2 ^ 29 ∧
      total_entries table_five < 2 ^ 29) ∧
    ∃ after, fmap_push 32 table_five (key32 17) (val64 34) = some after :=
  ⟨⟨by decide, by decide, by decide, by decide, by decide, by decide⟩,
    (operations_return 32 table_five (key32 17) (val64 34) [] (by decide) (by decide)
      (by decide) (by decide) (by decide) (by decide)).1⟩

/-! ## The two insertion paths -/

/-- C19: `push_slot(k)` followed by writing `v` into the returned region leaves
exactly the table that `push(k, v)` leaves, whether or not the call grows the
table: the two computations agree as a whole.  For a table whose `bucket_cap`
is at least 1, fits a `size_t` and does not exceed the array length, with
counter and number of blocks below `2 ^ 29`, both return a table once the
recursion budget is at least 32. -/
theorem pushp_then_store_eq_push (fuel : Nat) (map : fmap) (key v junk : List Nat) :
    (fmap_pushp fuel map key junk).bind (fun r => store_value r.1 r.2 v)
      = fmap_push fuel map key v ∧
    (32 ≤ fuel → 1 ≤ map.bucket_cap → map.bucket_cap ≤ map.buckets.length →
      map.bucket_cap < 2 ^ 64 → map.num_buckets < 2 ^ 29 → total_entries map < 2 ^ 29 →
      ∃ after, fmap_push fuel map key v = some after ∧
        (fmap_pushp fuel map key junk).bind (fun r => store_value r.1 r.2 v) = some after) := by
  refine ⟨pushp_bind_store fuel map key v junk, ?_⟩
  intro hfuel hcap hlen h64 hnum htot
  obtain ⟨after, h⟩ := push_returns fuel map key v hfuel hcap hlen h64 hnum htot
  exact ⟨after, h, (pushp_bind_store fuel map key v junk).trans h⟩

set_option maxRecDepth 100000 in
/-- C19 on the fresh table of capacity 16 after the keys 1 .. 5, the key 17 and
the value 34: both paths return the same table, with budget 32. -/
theorem pushp_then_store_eq_push_witness :
    (32 ≤ 32 ∧ 1 ≤ table_five.bucket_cap ∧ table_five.bucket_cap ≤ table_five.buckets.length ∧
      table_five.bucket_cap < 2 ^ 64 ∧ table_five.num_buckets < 2 ^ 29 ∧
      total_entries table_five < 2 ^ 29) ∧
    ∃ after, fmap_push 32 table_five (key32 17) (val64 34) = some after ∧
      (fmap_pushp 32 table_five (key32 17) []).bind
        (fun r => store_value r.1 r.2 (val64 34)) = some after :=
  ⟨⟨by decide, by decide, by decide, by decide, by decide, by decide⟩,
    (pushp_then_store_eq_push 32 table_five (key32 17) (val64 34) []).2 (by decide)
      (by decide) (by decide) (by decide) (by decide) (by decide)⟩

/-- C20: when the slot that `get` computes for a key holds a chain of exactly
one block, `get` returns the value region of that block, and the bytes there
are the value of the block.  Hence in a table whose chains all have at most
one block and whose blocks all sit in the slot computed for their key, `get`
on the key of any stored block returns the value region of that block, holding
the value stored for the key. -/
theorem collision_free_lookup (map : fmap) (hcap : map.bucket_cap ≠ 0) :
    (∀ (key : List Nat) (entry : fmapentry),
      map.buckets[lookup_index map key]? = some [entry] →
      fmap_get map key = some (some
        { slot := lookup_index map key, pos := 0, off := header_size + map.key1_size }) ∧
      load_value map
        { slot := lookup_index map key, pos := 0, off := header_size + map.key1_size }
        = some entry.value) ∧
    (chains_single map = true → placement_holds map = true →
      ∀ (i : Nat) (chain : List fmapentry) (entry : fmapentry),
        map.buckets[i]? = some chain → entry ∈ chain →
        fmap_get map entry.key = some (some
          { slot := i, pos := 0, off := header_size + map.key1_size }) ∧
        load_value map { slot := i, pos := 0, off := header_size + map.key1_size }
          = some entry.value) := by
  have hfirst : ∀ (key : List Nat) (entry : fmapentry),
      map.buckets[lookup_index map key]? = some [entry] →
      fmap_get map key = some (some
        { slot := lookup_index map key, pos := 0, off := header_size + map.key1_size }) ∧
      load_value map
        { slot := lookup_index map key, pos := 0, off := header_size + map.key1_size }
        = some entry.value :=
    fun key entry h => ⟨fmap_get_of_single map key entry hcap h,
      load_value_of_slot map _ 0 [entry] entry h rfl⟩
  refine ⟨hfirst, ?_⟩
  intro hsingle hplace i chain entry hi he
  have hlen := chains_single_spec map hsingle i chain hi
  have hidx := placement_holds_spec map hplace i chain entry hi he
  have hchain : chain = [entry] := by
    cases chain with
    | nil => cases he
    | cons head rest =>
      cases rest with
      | nil =>
        rw [List.mem_singleton] at he
        rw [he]
      | cons r rs => simp at hlen
  rw [hchain, ← hidx] at hi
  have := hfirst entry.key entry hi
  rw [hidx] at this
  exact this

/-- C20 on the fresh table of capacity 16 after `push` of the keys 1 .. 5: the
chains are single and placed, slot 3 holds the block of key 3, and `get(3)`
returns its value region, which holds the bytes of 6. -/
theorem collision_free_lookup_witness :
    table_five.bucket_cap ≠ 0 ∧ chains_single table_five = true ∧
    placement_holds table_five = true ∧
    fmap_get table_five (key32 3) = some (some
      { slot := 3, pos := 0, off := header_size + table_five.key1_size }) ∧
    load_value table_five { slot := 3, pos := 0, off := header_size + table_five.key1_size }
      = some (val64 6) :=
  ⟨by decide, by decide, by decide,
    (collision_free_lookup table_five (by decide)).2 (by decide) (by decide) 3
      [fmap_initialize_fmapentry table16 (alloc_entry table16 []) 3 (key32 3) (val64 6)]
      (fmap_initialize_fmapentry table16 (alloc_entry table16 []) 3 (key32 3) (val64 6))
      (by decide) (by decide)⟩

end Fmap
